import Mathlib

/-!
# Verification of the narrator timing / segmentation / subtitle engine

Shallow embedding of the text-segmentation, slide-timing, karaoke-frame and
SRT-subtitle generation logic of the repository (files `video_generator.py`
and `pptx_handler.py`).  Texts are modelled as `List Char`, Python floats as
exact rationals (`ℚ`), Python `int()` truncation as truncating integer
division.  File-system facts (does an audio file exist, what duration does
the decoder report) are inputs of the model, exactly as the code receives
them from its collaborators.
-/

namespace Narrator

/-- Python whitespace test (`str.isspace` for the ASCII range): the
characters recognised by `str.strip` / `str.split` / the `\s` regex class. -/
def pyIsSpace (c : Char) : Bool :=
  c = ' ' || c = '\t' || c = '\n' || c = '\x0d' || c = '\x0b' || c = '\x0c'

/-- Python `str.strip()` : drop whitespace from both ends. -/
def pyStrip (s : List Char) : List Char :=
  ((s.dropWhile pyIsSpace).reverse.dropWhile pyIsSpace).reverse

/-- Python `str.replace('\n', ' ')` : a single-character replacement is a map. -/
def nlToSpace (s : List Char) : List Char :=
  s.map fun c => if c = '\n' then ' ' else c

/-- Python `str.replace('  ', ' ')` : left-to-right non-overlapping
replacement of two spaces by one. -/
def collapseDouble : List Char → List Char
  | [] => []
  | [c] => [c]
  | c :: d :: rest =>
    if c = ' ' ∧ d = ' ' then ' ' :: collapseDouble rest
    else c :: collapseDouble (d :: rest)

/-- The normalisation `texto.strip().replace('\n', ' ').replace('  ', ' ')`
performed by both segmenters (`video_generator._dividir_texto_segmentos`
line 502, `pptx_handler._dividir_texto_segmentos_srt` line 976) and by
`_formatar_texto_srt` (line 1026). -/
def normTexto (s : List Char) : List Char :=
  collapseDouble (nlToSpace (pyStrip s))

/-- Python `str.split()` (no separator): the maximal whitespace-free runs,
empty runs discarded. -/
def pySplit (s : List Char) : List (List Char) :=
  (s.splitOnP pyIsSpace).filter fun w => w ≠ []

/-- Sentence-ending punctuation of the regex `(?<=[.!?])\s+`. -/
def isPunct (c : Char) : Bool :=
  c = '.' || c = '!' || c = '?'

/-- Fuelled worker for `re.split(r'(?<=[.!?])\s+', texto)`: cut after a
`.`/`!`/`?` that is followed by whitespace, consuming the whole whitespace
run.  The fuel only serves to make the recursion structural; it is always
called with enough fuel. -/
def splitSentF : Nat → List Char → List (List Char)
  | 0, s => [s]
  | fuel + 1, s =>
    match s with
    | [] => [[]]
    | c :: rest =>
      if isPunct c ∧ (rest.head?.any pyIsSpace) then
        [c] :: splitSentF fuel (rest.dropWhile pyIsSpace)
      else
        (splitSentF fuel rest).modifyHead fun h => c :: h

/-- Model of `re.split(r'(?<=[.!?])\s+', texto)` (`pptx_handler` line 983,
`video_generator` line 508). -/
def splitSent (s : List Char) : List (List Char) :=
  splitSentF (s.length + 1) s

/-! ## The SRT segmenter `pptx_handler._dividir_texto_segmentos_srt` -/

/-- State of the packing loops: the accumulated `segmentos` list and the
running `segmento_atual`. -/
abbrev PackSt := List (List Char) × List Char

/-- One iteration of the word loop (`pptx_handler` lines 1005-1011):
`if len(segmento_atual) + len(palavra) + 1 <= max_chars` extend, else flush
and restart from the word. -/
def packWordSrt (maxChars : Nat) (st : PackSt) (palavra : List Char) : PackSt :=
  if st.2.length + palavra.length + 1 ≤ maxChars then
    (st.1, pyStrip (st.2 ++ ' ' :: palavra))
  else
    ((if st.2 ≠ [] then st.1 ++ [st.2] else st.1), palavra)

/-- One iteration of the sentence loop (`pptx_handler` lines 988-1013). -/
def packFraseSrt (maxChars : Nat) (st : PackSt) (frase0 : List Char) : PackSt :=
  let frase := pyStrip frase0
  if frase = [] then st
  else if st.2.length + frase.length + 1 ≤ maxChars then
    (st.1, pyStrip (st.2 ++ ' ' :: frase))
  else
    let segs := if st.2 ≠ [] then st.1 ++ [st.2] else st.1
    if maxChars < frase.length then
      (pySplit frase).foldl (packWordSrt maxChars) (segs, [])
    else (segs, frase)

/-- Model of `_dividir_texto_segmentos_srt(texto, max_chars, max_linhas)`
(lines 969-1019).  `max_linhas` is accepted by the Python function but never
used by its body, so it is not a parameter of the model. -/
def dividirTextoSegmentosSrt (texto : List Char) (maxChars : Nat) :
    List (List Char) :=
  let t := normTexto texto
  if t.length ≤ maxChars then [t]
  else
    let st := (splitSent t).foldl (packFraseSrt maxChars) ([], [])
    let segs := if st.2 ≠ [] then st.1 ++ [st.2] else st.1
    if segs ≠ [] then segs else [t.take maxChars]

/-! ## The video-caption segmenter `video_generator._dividir_texto_segmentos`

Identical algorithm written with the branches in the opposite order and with
a redundant `.strip()` on every append; its character budget is derived from
the configured number of caption lines. -/

/-- Word loop of `video_generator._dividir_texto_segmentos`
(lines 525-531). -/
def packWordVid (maxChars : Nat) (st : PackSt) (palavra : List Char) : PackSt :=
  if maxChars < st.2.length + palavra.length + 1 then
    ((if st.2 ≠ [] then st.1 ++ [pyStrip st.2] else st.1), palavra)
  else
    (st.1, pyStrip (st.2 ++ ' ' :: palavra))

/-- Sentence loop of `video_generator._dividir_texto_segmentos`
(lines 513-535). -/
def packFraseVid (maxChars : Nat) (st : PackSt) (frase0 : List Char) : PackSt :=
  let frase := pyStrip frase0
  if frase = [] then st
  else if maxChars < st.2.length + frase.length + 1 then
    let segs := if st.2 ≠ [] then st.1 ++ [pyStrip st.2] else st.1
    if maxChars < frase.length then
      (pySplit frase).foldl (packWordVid maxChars) (segs, [])
    else (segs, frase)
  else
    (st.1, pyStrip (st.2 ++ ' ' :: frase))

/-- Model of `video_generator._dividir_texto_segmentos(texto)` (lines 496-543):
`chars_por_linha = 40`, `max_chars_segmento = min(legendas_linhas * 40, 120)`.
-/
def dividirTextoSegmentos (texto : List Char) (legendasLinhas : Nat) :
    List (List Char) :=
  let maxChars := min (legendasLinhas * 40) 120
  let t := normTexto texto
  if t.length ≤ maxChars then [t]
  else
    let st := (splitSent t).foldl (packFraseVid maxChars) ([], [])
    let segs := if st.2 ≠ [] then st.1 ++ [pyStrip st.2] else st.1
    if segs ≠ [] then segs else [t.take maxChars]

/-! ## The SRT line formatter `pptx_handler._formatar_texto_srt` -/

/-- Python `' '.join(palavras)`. -/
def joinSpace : List (List Char) → List Char
  | [] => []
  | [w] => w
  | w :: ws => w ++ ' ' :: joinSpace ws

/-- Python `'\n'.join(linhas)`, each line being given by its word list. -/
def joinLinhas : List (List (List Char)) → List Char
  | [] => []
  | [l] => joinSpace l
  | l :: ls => joinSpace l ++ '\n' :: joinLinhas ls

/-- The word loop of `_formatar_texto_srt` (lines 1037-1052): greedy
line-packing with the code's running-size bookkeeping, the early `break`
after the second line is produced, and the guarded final append.  Lines are
kept as word lists; the caller joins them. -/
def fmtLoop (maxCharsLinha : Nat) (linhas : List (List (List Char)))
    (linha : List (List Char)) (tam : Nat) :
    List (List Char) → List (List (List Char))
  | [] => if linha ≠ [] ∧ linhas.length < 2 then linhas ++ [linha] else linhas
  | p :: rest =>
    if tam + p.length + 1 ≤ maxCharsLinha then
      fmtLoop maxCharsLinha linhas (linha ++ [p]) (tam + p.length + 1) rest
    else
      let linhas2 := if linha ≠ [] then linhas ++ [linha] else linhas
      if 2 ≤ linhas2.length then linhas2
      else fmtLoop maxCharsLinha linhas2 [p] p.length rest

/-- Model of `pptx_handler._formatar_texto_srt(texto, max_chars_linha)`
(lines 1021-1054). -/
def formatarTextoSrt (texto : List Char) (maxCharsLinha : Nat) : List Char :=
  let t := normTexto texto
  if t.length ≤ maxCharsLinha then t
  else joinLinhas ((fmtLoop maxCharsLinha [] [] 0 (pySplit t)).take 2)

/-! ## The subtitle generator `pptx_handler.gerar_srt`

Audio-duration resolution (lines 892-915) reads the file system and the
audio decoder, so the model receives each slide's already-resolved
`duracao_audio`, together with the already-chosen narration text, exactly
as the pure part of the loop (lines 917-957) consumes them. -/

/-- One slide as `gerar_srt`'s loop body sees it. -/
structure SlideSrt where
  texto : List Char
  duracaoAudio : ℚ
deriving DecidableEq, Repr

/-- One emitted subtitle entry (index, start and end time in seconds, and
the formatted text); times are kept as exact rationals, before the final
`HH:MM:SS,mmm` rendering. -/
structure SrtEntry where
  indice : Nat
  inicio : ℚ
  fim : ℚ
  texto : List Char
deriving DecidableEq, Repr

/-- Computation of `duracao_slide` (lines 917-921): audio duration plus `tempo_extra` when
there is audio, else `tempo_minimo`. -/
def duracaoSlideSrt (tempoExtra tempoMinimo duracaoAudio : ℚ) : ℚ :=
  if 0 < duracaoAudio then duracaoAudio + tempoExtra else tempoMinimo

/-- The `for seg_idx, segmento in enumerate(segmentos)` loop (lines 940-955):
entry `seg_idx` spans `[tempo + seg_idx*dps, tempo + (seg_idx+1)*dps]` and
takes the next counter value. -/
def slideEntries (tempo dps : ℚ) (contador segIdx : Nat) :
    List (List Char) → List SrtEntry
  | [] => []
  | seg :: rest =>
    ⟨contador, tempo + segIdx * dps, tempo + (segIdx + 1) * dps,
      formatarTextoSrt seg 60⟩ ::
      slideEntries tempo dps (contador + 1) (segIdx + 1) rest

/-- The slide loop of `gerar_srt` (lines 890-957), carrying `tempo_atual`
and `contador`. -/
def gerarSrtCore (tempoExtra tempoMinimo : ℚ) (maxChars : Nat) :
    ℚ → Nat → List SlideSrt → List SrtEntry
  | _, _, [] => []
  | tempo, contador, slide :: rest =>
    let dur := duracaoSlideSrt tempoExtra tempoMinimo slide.duracaoAudio
    if pyStrip slide.texto = [] then
      gerarSrtCore tempoExtra tempoMinimo maxChars (tempo + dur) contador rest
    else
      let segs := dividirTextoSegmentosSrt slide.texto maxChars
      if segs.length = 0 then
        gerarSrtCore tempoExtra tempoMinimo maxChars (tempo + dur) contador rest
      else
        slideEntries tempo (dur / segs.length) contador 0 segs ++
          gerarSrtCore tempoExtra tempoMinimo maxChars (tempo + dur)
            (contador + segs.length) rest

/-- Model of `pptx_handler.gerar_srt` (lines 886-957): `tempo_atual = 0.0`,
`contador = 1`. -/
def gerarSrt (tempoExtra tempoMinimo : ℚ) (maxChars : Nat)
    (slides : List SlideSrt) : List SrtEntry :=
  gerarSrtCore tempoExtra tempoMinimo maxChars 0 1 slides

/-! ## The karaoke frame sequencer `video_generator._gerar_clips_karaoke` -/

/-- Python `int(x)` on a rational: truncation toward zero. -/
def pyInt (q : ℚ) : Int :=
  Int.tdiv q.num q.den

/-- Fuelled `palavras[i:i+k]` chunking (lines 638-640); fuel is structural,
always called with the list length. -/
def chunkF : Nat → Nat → List (List Char) → List (List (List Char))
  | 0, _, _ => []
  | _ + 1, _, [] => []
  | fuel + 1, k, l => l.take k :: chunkF fuel k (l.drop k)

/-- The loop `grupos_palavras.append(palavras[i:i+palavras_por_frame])` for
`i in range(0, num_palavras, palavras_por_frame)`. -/
def chunkPalavras (k : Nat) (l : List (List Char)) : List (List (List Char)) :=
  chunkF l.length k l

/-- One karaoke frame: the highlighted word group, the clip duration, and
whether the slide audio is attached to this clip. -/
structure ClipKaraoke where
  grupo : List (List Char)
  dur : ℚ
  audio : Bool
deriving DecidableEq, Repr

/-- The clip-emission loop (lines 659-685): every frame lasts
`tempo_por_frame_audio`, the last frame additionally absorbs
`tempo_extra_final`, and only frame 0 carries the audio. -/
def emitClips (audioOk : Bool) (tpf extra : ℚ) (numFrames : Nat) :
    Nat → List (List (List Char)) → List ClipKaraoke
  | _, [] => []
  | idx, g :: rest =>
    ⟨g, (if idx = numFrames - 1 then tpf + extra else tpf),
      (idx = 0 && audioOk)⟩ :: emitClips audioOk tpf extra numFrames (idx + 1) rest

/-- Model of `video_generator._gerar_clips_karaoke` (lines 621-687).  `audioOk`
models "`audio_path` exists and `AudioFileClip` loads it"; `duracaoAudio`
is the `duracao_audio` argument (`none` for Python `None`). -/
def gerarClipsKaraoke (texto : List Char) (duracaoSlide : ℚ)
    (audioOk : Bool) (duracaoAudio : Option ℚ) : List ClipKaraoke :=
  let palavras := pySplit (pyStrip texto)
  let n := palavras.length
  if n = 0 then []
  else
    let dpp : ℚ := match duracaoAudio with
      | some d => if 0 < d then d else duracaoSlide
      | none => duracaoSlide
    let tpp : ℚ := dpp / (n : ℚ)
    let grupos :=
      if tpp < 3 / 10 then
        chunkPalavras (max 1 (pyInt ((3 / 10) / tpp)).toNat) palavras
      else palavras.map fun p => [p]
    let numFrames := grupos.length
    let tpf := dpp / numFrames
    let extra := max 0 (duracaoSlide - dpp)
    emitClips audioOk tpf extra numFrames 0 grupos

/-! ## Slide timing in `video_generator.gerar_video` (lines 910-986)

The file-system and decoder facts (does each audio file exist, what duration
the decoder or the stored metadata reports) are inputs.  When a path exists,
`durOrig`/`durTrad` is the value the code's `try/except` leaves in
`duracao_orig`/`duracao_trad`; when it does not exist the code leaves 0. -/

structure SlideAudioInfo where
  origEx : Bool
  durOrig : ℚ
  tradEx : Bool
  durTrad : ℚ
  storedOrig : ℚ
  storedTrad : ℚ
deriving DecidableEq, Repr

/-- Which audio file ends up in `audio_path`. -/
inductive AudioSel | orig | trad
deriving DecidableEq, Repr

/-- The progress message reported for the slide's audio choice: the
observable source flag (lines 947-965). -/
inductive FonteAudio | original | traduzido | fallbackOriginal | nenhum
deriving DecidableEq, Repr

structure TimingResult where
  duracao : ℚ
  duracaoAudioReal : ℚ
  audioPath : Option AudioSel
  fonte : FonteAudio
deriving DecidableEq, Repr

/-- Lines 915-986 of `gerar_video`: select the audio (translated with
fallback to original, or original only), then
`duracao_audio = max(duracao_orig, duracao_trad)`, the `<= 0` fallbacks, and
`duracao = duracao_audio + tempo_extra_slide` or `tempo_minimo_slide`. -/
def resolverTimingSlide (info : Option SlideAudioInfo) (usarTrad : Bool)
    (tempoExtra tempoMinimo : ℚ) : TimingResult :=
  match info with
  | none => ⟨tempoMinimo, 0, none, .nenhum⟩
  | some i =>
    let dOrig := if i.origEx then i.durOrig else 0
    let dTrad := if i.tradEx then i.durTrad else 0
    let sel : Option AudioSel × ℚ × FonteAudio :=
      if usarTrad then
        if i.tradEx then (some .trad, dTrad, .traduzido)
        else if i.origEx then (some .orig, dOrig, .fallbackOriginal)
        else (none, 0, .nenhum)
      else
        if i.origEx then (some .orig, dOrig, .original)
        else (none, 0, .nenhum)
    let dAudio := max dOrig dTrad
    let real := if sel.2.1 ≤ 0 then dAudio else sel.2.1
    let dAudio2 := if dAudio ≤ 0 then max i.storedOrig i.storedTrad else dAudio
    let duracao := if 0 < dAudio2 then dAudio2 + tempoExtra else tempoMinimo
    ⟨duracao, real, sel.1, sel.2.2⟩

/-- The words held by a packing state. -/
def stWords (st : PackSt) : List (List Char) :=
  (st.1.map pySplit).flatten ++ pySplit st.2

/-- A segment is acceptable when it respects the character budget or is one
single whitespace-free word (the documented oversized-word overflow). -/
def SegOk (m : Nat) (x : List Char) : Prop :=
  x.length ≤ m ∨ pySplit x = [x]

/-- A word as produced by `str.split()`: nonempty and whitespace-free. -/
def WordOk (w : List Char) : Prop :=
  w ≠ [] ∧ ∀ c ∈ w, pyIsSpace c = false

def PackInv (m : Nat) (st : PackSt) : Prop :=
  (∀ x ∈ st.1, SegOk m x) ∧ SegOk m st.2

/-- The running segment is already stripped. -/
def StFix (st : PackSt) : Prop := pyStrip st.2 = st.2

/-- Total clock advance of a slide list. -/
def durTotal (tempoExtra tempoMinimo : ℚ) : List SlideSrt → ℚ
  | [] => 0
  | s :: rest =>
    duracaoSlideSrt tempoExtra tempoMinimo s.duracaoAudio +
      durTotal tempoExtra tempoMinimo rest

/-- Named components of `_gerar_clips_karaoke`, mirroring its local
variables, for stating structural lemmas. -/
def kPalavras (texto : List Char) : List (List Char) :=
  pySplit (pyStrip texto)

def kDpp (duracaoSlide : ℚ) (duracaoAudio : Option ℚ) : ℚ :=
  match duracaoAudio with
  | some d => if 0 < d then d else duracaoSlide
  | none => duracaoSlide

def kTpp (texto : List Char) (duracaoSlide : ℚ) (duracaoAudio : Option ℚ) : ℚ :=
  kDpp duracaoSlide duracaoAudio / ((kPalavras texto).length : ℚ)

def kGrupos (texto : List Char) (duracaoSlide : ℚ) (duracaoAudio : Option ℚ) :
    List (List (List Char)) :=
  if kTpp texto duracaoSlide duracaoAudio < 3 / 10 then
    chunkPalavras
      (max 1 (pyInt ((3 / 10) / kTpp texto duracaoSlide duracaoAudio)).toNat)
      (kPalavras texto)
  else (kPalavras texto).map fun p => [p]

/-! ## Concrete example inputs used by witnesses and counterexamples -/

/-- A single 125-character word: longer than any configured segment limit. -/
def exWord125 : List Char := List.replicate 125 'a'

/-- Twenty one-letter words: the spec's Scenario B word list. -/
def exText20 : List Char := (List.replicate 20 ['a', ' ']).flatten

/-- A 100-character sentence of short words. -/
def exSent1 : List Char :=
  (List.replicate 19 ['a', 'b', 'c', 'd', ' ']).flatten ++ ['e', 'f', 'g', 'h', '.']

/-- A 99-character sentence of short words. -/
def exSent2 : List Char :=
  (List.replicate 19 ['a', 'b', 'c', 'd', ' ']).flatten ++ ['e', 'f', 'g', '.']

/-- A 300-character narration: the spec's Scenario C text. -/
def exText300 : List Char := exSent1 ++ ' ' :: exSent2 ++ ' ' :: exSent2

/-- Three 31-character words: 95 characters, one segment, but three words
that cannot share a 60-character subtitle line. -/
def exW31a : List Char := List.replicate 31 'a'

def exW31b : List Char := List.replicate 31 'b'

def exW31c : List Char := List.replicate 31 'c'

def exText95 : List Char := exW31a ++ ' ' :: exW31b ++ ' ' :: exW31c

/-! ## Basic word-splitting lemmas -/

theorem pySplit_nil : pySplit [] = [] := rfl

theorem pySplit_cons_space {c : Char} (hc : pyIsSpace c = true) (s : List Char) :
    pySplit (c :: s) = pySplit s := by
  simp [pySplit, List.splitOnP_cons, hc]

theorem splitOnP_head_cons {d : Char} (hd : pyIsSpace d = false) (s : List Char) :
    ∃ h t, (d :: s).splitOnP pyIsSpace = (d :: h) :: t := by
  rw [List.splitOnP_cons, hd]
  rcases hne : s.splitOnP pyIsSpace with _ | ⟨h, t⟩
  · exact absurd hne (List.splitOnP_ne_nil _ s)
  · exact ⟨h, t, rfl⟩

theorem pySplit_cons_head_space {c : Char} (hc : pyIsSpace c = false)
    (s : List Char) (hs : s.head?.all pyIsSpace = true) :
    pySplit (c :: s) = [c] :: pySplit s := by
  cases s with
  | nil => simp [pySplit, List.splitOnP_cons, hc, List.splitOnP_nil,
      List.modifyHead, List.filter]
  | cons d s2 =>
    simp only [List.head?_cons, Option.all_some] at hs
    simp only [pySplit, List.splitOnP_cons, hc, hs, Bool.false_eq_true, if_false,
      if_true]
    rcases hne : s2.splitOnP pyIsSpace with _ | ⟨h, t⟩
    · exact absurd hne (List.splitOnP_ne_nil _ s2)
    · simp [List.modifyHead, List.filter]

theorem pySplit_cons_head_notspace {c d : Char} (hc : pyIsSpace c = false)
    (hd : pyIsSpace d = false) (s : List Char) :
    pySplit (c :: d :: s) = (pySplit (d :: s)).modifyHead (fun h => c :: h) := by
  obtain ⟨h, t, hht⟩ := splitOnP_head_cons hd s
  simp [pySplit, List.splitOnP_cons (p := pyIsSpace) c (d :: s), hc, hht,
    List.modifyHead, List.filter]

theorem pySplit_head_ne_nil {d : Char} (hd : pyIsSpace d = false) (s : List Char) :
    pySplit (d :: s) ≠ [] := by
  obtain ⟨h, t, hht⟩ := splitOnP_head_cons hd s
  simp [pySplit, hht, List.filter]

theorem pySplit_all_space {s : List Char} (h : ∀ c ∈ s, pyIsSpace c = true) :
    pySplit s = [] := by
  induction s with
  | nil => rfl
  | cons c s2 ih =>
    rw [pySplit_cons_space (h c (by simp)) s2]
    exact ih fun c hc => h c (by simp [hc])

theorem pySplit_eq_nil (s : List Char) :
    pySplit s = [] ↔ ∀ c ∈ s, pyIsSpace c = true := by
  constructor
  · induction s with
    | nil => intro _ c hc; simp at hc
    | cons d s2 ih =>
      intro h c hc
      rcases hd : pyIsSpace d with _ | _
      · exact absurd h (pySplit_head_ne_nil hd s2)
      · rw [pySplit_cons_space hd s2] at h
        rcases List.mem_cons.mp hc with rfl | hc2
        · exact hd
        · exact ih h c hc2
  · exact pySplit_all_space

theorem modifyHead_append_left {α : Type} (f : α → α) {l : List α}
    (hl : l ≠ []) (r : List α) :
    (l ++ r).modifyHead f = l.modifyHead f ++ r := by
  cases l with
  | nil => exact absurd rfl hl
  | cons a l2 => simp [List.modifyHead]

theorem pySplit_append_space {c : Char} (hc : pyIsSpace c = true)
    (a b : List Char) : pySplit (a ++ c :: b) = pySplit a ++ pySplit b := by
  induction a with
  | nil => simp [pySplit_cons_space hc, pySplit_nil]
  | cons x a2 ih =>
    rcases hx : pyIsSpace x with _ | _
    · cases a2 with
      | nil =>
        simp only [List.nil_append, List.cons_append]
        rw [pySplit_cons_head_space hx (c :: b) (by simp [hc]),
          pySplit_cons_space hc b, pySplit_cons_head_space hx [] (by simp)]
        simp [pySplit_nil]
      | cons y a3 =>
        rcases hy : pyIsSpace y with _ | _
        · simp only [List.cons_append]
          rw [pySplit_cons_head_notspace hx hy, pySplit_cons_head_notspace hx hy]
          simp only [← List.cons_append]
          rw [ih]
          exact modifyHead_append_left _ (pySplit_head_ne_nil hy a3) _
        · simp only [List.cons_append]
          rw [pySplit_cons_head_space hx (y :: (a3 ++ c :: b)) (by simp [hy]),
            pySplit_cons_head_space hx (y :: a3) (by simp [hy])]
          simp only [← List.cons_append]
          rw [ih]
          simp
    · simp only [List.cons_append]
      rw [pySplit_cons_space hx, pySplit_cons_space hx]
      exact ih

theorem pySplit_append_all_space {b : List Char}
    (hb : ∀ c ∈ b, pyIsSpace c = true) (a : List Char) :
    pySplit (a ++ b) = pySplit a := by
  cases b with
  | nil => simp
  | cons c b2 =>
    have hb2 : pySplit b2 = [] :=
      pySplit_all_space fun d hd => hb d (by simp [hd])
    rw [pySplit_append_space (hb c (by simp)) a b2, hb2]
    simp

/-- Every word produced by `pySplit` is nonempty and whitespace-free. -/
theorem pySplit_clean {s : List Char} {w : List Char} (hw : w ∈ pySplit s) :
    w ≠ [] ∧ ∀ c ∈ w, pyIsSpace c = false := by
  have hmem : w ∈ s.splitOnP pyIsSpace ∧ w ≠ [] := by
    have := List.mem_filter.mp hw
    exact ⟨this.1, by simpa using this.2⟩
  refine ⟨hmem.2, ?_⟩
  have main : ∀ s2 : List Char, ∀ w2 ∈ s2.splitOnP pyIsSpace,
      ∀ c ∈ w2, pyIsSpace c = false := by
    intro s2
    induction s2 with
    | nil => intro w2 hw2 c hc; simp [List.splitOnP_nil] at hw2; simp [hw2] at hc
    | cons d s3 ih =>
      intro w2 hw2 c hc
      rcases hd : pyIsSpace d with _ | _
      · rw [List.splitOnP_cons, hd] at hw2
        simp only [Bool.false_eq_true, if_false] at hw2
        rcases hne : s3.splitOnP pyIsSpace with _ | ⟨h, t⟩
        · exact absurd hne (List.splitOnP_ne_nil _ s3)
        · rw [hne] at hw2
          simp only [List.modifyHead, List.mem_cons] at hw2
          rcases hw2 with rfl | hw2
          · rcases List.mem_cons.mp hc with rfl | hc2
            · exact hd
            · exact ih h (by rw [hne]; simp) c hc2
          · exact ih w2 (by rw [hne]; simp [hw2]) c hc
      · rw [List.splitOnP_cons, hd] at hw2
        simp only [if_true, List.mem_cons] at hw2
        rcases hw2 with rfl | hw2
        · simp at hc
        · exact ih w2 hw2 c hc
  exact main s w hmem.1

/-- A nonempty whitespace-free string is a single word. -/
theorem pySplit_single {w : List Char} (hne : w ≠ [])
    (hcl : ∀ c ∈ w, pyIsSpace c = false) : pySplit w = [w] := by
  rw [pySplit, List.splitOnP_eq_single]
  · simp [List.filter, hne]
  · intro c hc
    simp [hcl c hc]

/-! ## Lemmas about `pyStrip` -/

theorem dropWhile_head_fails {p : Char → Bool} {l : List Char} {c : Char}
    (h : (l.dropWhile p).head? = some c) : p c = false := by
  induction l with
  | nil => simp at h
  | cons d l2 ih =>
    rw [List.dropWhile_cons] at h
    by_cases hd : p d = true
    · exact ih (by simpa [hd] using h)
    · rw [if_neg hd] at h
      rw [List.head?_cons, Option.some_inj] at h
      subst h
      simpa using hd

theorem dropWhile_eq_self_of_head {p : Char → Bool} {l : List Char}
    (h : ∀ c, l.head? = some c → p c = false) : l.dropWhile p = l := by
  cases l with
  | nil => rfl
  | cons d l2 => simp [List.dropWhile_cons, h d rfl]

/-- Every string is its end-stripped part followed by trailing whitespace. -/
theorem stripEnd_spec (t : List Char) :
    ∃ b, t = (t.reverse.dropWhile pyIsSpace).reverse ++ b ∧
      ∀ c ∈ b, pyIsSpace c = true := by
  refine ⟨(t.reverse.takeWhile pyIsSpace).reverse, ?_, ?_⟩
  · conv_lhs => rw [← t.reverse_reverse,
      ← List.takeWhile_append_dropWhile pyIsSpace t.reverse,
      List.reverse_append]
  · intro c hc
    rw [List.mem_reverse] at hc
    exact List.mem_takeWhile_imp hc

theorem pySplit_dropWhile (s : List Char) :
    pySplit (s.dropWhile pyIsSpace) = pySplit s := by
  induction s with
  | nil => rfl
  | cons d s2 ih =>
    rw [List.dropWhile_cons]
    by_cases hd : pyIsSpace d = true
    · rw [if_pos hd, pySplit_cons_space hd]
      exact ih
    · simp [hd]

theorem pySplit_pyStrip (s : List Char) : pySplit (pyStrip s) = pySplit s := by
  obtain ⟨b, hb, hball⟩ := stripEnd_spec (s.dropWhile pyIsSpace)
  calc pySplit (pyStrip s) = pySplit (pyStrip s ++ b) :=
        (pySplit_append_all_space hball _).symm
    _ = pySplit (s.dropWhile pyIsSpace) := by rw [pyStrip, ← hb]
    _ = pySplit s := pySplit_dropWhile s

theorem pyStrip_length_le (s : List Char) : (pyStrip s).length ≤ s.length := by
  have h1 : (s.dropWhile pyIsSpace).length ≤ s.length :=
    (List.dropWhile_sublist pyIsSpace).length_le
  have h2 : (pyStrip s).length ≤ (s.dropWhile pyIsSpace).length := by
    rw [pyStrip]
    calc ((s.dropWhile pyIsSpace).reverse.dropWhile pyIsSpace).reverse.length
        = ((s.dropWhile pyIsSpace).reverse.dropWhile pyIsSpace).length := by simp
      _ ≤ (s.dropWhile pyIsSpace).reverse.length :=
          (List.dropWhile_sublist pyIsSpace).length_le
      _ = (s.dropWhile pyIsSpace).length := by simp
  exact h2.trans h1

theorem pyStrip_nil : pyStrip [] = [] := rfl

theorem pyStrip_eq_nil_iff (s : List Char) :
    pyStrip s = [] ↔ ∀ c ∈ s, pyIsSpace c = true := by
  constructor
  · intro h
    have := pySplit_pyStrip s
    rw [h] at this
    exact (pySplit_eq_nil s).mp this.symm
  · intro h
    have h1 : s.dropWhile pyIsSpace = [] := by
      induction s with
      | nil => rfl
      | cons d s2 ih =>
        rw [List.dropWhile_cons, h d (by simp)]
        simp only [if_true]
        exact ih fun c hc => h c (by simp [hc])
    rw [pyStrip, h1]
    rfl

/-- Strings whose first and last characters are not whitespace are fixed by
`pyStrip`. -/
theorem pyStrip_eq_self {s : List Char}
    (hh : ∀ c, s.head? = some c → pyIsSpace c = false)
    (hl : ∀ c, s.getLast? = some c → pyIsSpace c = false) :
    pyStrip s = s := by
  rw [pyStrip, dropWhile_eq_self_of_head hh, dropWhile_eq_self_of_head ?hr]
  · simp
  case hr =>
    intro c hc
    rw [List.head?_reverse] at hc
    exact hl c hc

theorem pyStrip_idem (s : List Char) : pyStrip (pyStrip s) = pyStrip s := by
  have hhead : ∀ c, (pyStrip s).head? = some c → pyIsSpace c = false := by
    intro c hc
    obtain ⟨b, hb, _⟩ := stripEnd_spec (s.dropWhile pyIsSpace)
    rcases hrev : pyStrip s with _ | ⟨x, t⟩
    · rw [hrev] at hc; simp at hc
    · rw [hrev] at hc
      simp only [List.head?_cons, Option.some_inj] at hc
      rw [pyStrip] at hrev
      rw [hrev] at hb
      have hux : (s.dropWhile pyIsSpace).head? = some x := by
        rw [hb]; simp
      exact hc ▸ dropWhile_head_fails hux
  have hlast : ∀ c, (pyStrip s).getLast? = some c → pyIsSpace c = false := by
    intro c hc
    rw [pyStrip, List.getLast?_reverse] at hc
    exact dropWhile_head_fails hc
  exact pyStrip_eq_self hhead hlast

theorem pyStrip_clean {w : List Char} (hcl : ∀ c ∈ w, pyIsSpace c = false) :
    pyStrip w = w := by
  refine pyStrip_eq_self (fun c hc => ?_) (fun c hc => ?_)
  · exact hcl c (List.mem_of_mem_head? hc)
  · exact hcl c (List.mem_of_mem_getLast? hc)

/-! ## Word preservation of the normalisation -/

theorem pySplit_nlToSpace (s : List Char) : pySplit (nlToSpace s) = pySplit s := by
  have hsp : ∀ c, pyIsSpace (if c = '\n' then ' ' else c) = pyIsSpace c := by
    intro c
    by_cases hc : c = '\n'
    · subst hc; rfl
    · rw [if_neg hc]
  have hfix : ∀ c, pyIsSpace c = false → (if c = '\n' then ' ' else c) = c := by
    intro c hc
    by_cases h : c = '\n'
    · subst h; simp [pyIsSpace] at hc
    · rw [if_neg h]
  induction s with
  | nil => rfl
  | cons c s2 ih =>
    rw [show nlToSpace (c :: s2) =
      (if c = '\n' then ' ' else c) :: nlToSpace s2 from rfl]
    rcases hc : pyIsSpace c with _ | _
    · rw [hfix c hc]
      cases s2 with
      | nil => rfl
      | cons d s3 =>
        rw [show nlToSpace (d :: s3) =
          (if d = '\n' then ' ' else d) :: nlToSpace s3 from rfl]
        rcases hd : pyIsSpace d with _ | _
        · rw [hfix d hd]
          rw [pySplit_cons_head_notspace hc hd, pySplit_cons_head_notspace hc hd]
          have hsub : pySplit (d :: nlToSpace s3) = pySplit (d :: s3) := by
            rw [show ((d : Char) :: nlToSpace s3) = nlToSpace (d :: s3) from by
              rw [show nlToSpace (d :: s3) =
                (if d = '\n' then ' ' else d) :: nlToSpace s3 from rfl,
                hfix d hd], ih]
          rw [hsub]
        · have hd2 : pyIsSpace (if d = '\n' then ' ' else d) = true := by
            rw [hsp d]; exact hd
          rw [pySplit_cons_head_space hc _ (by simp [hd2]),
            pySplit_cons_head_space hc (d :: s3) (by simp [hd])]
          rw [show ((if d = '\n' then ' ' else d) :: nlToSpace s3) =
            nlToSpace (d :: s3) from rfl, ih]
    · have hc2 : pyIsSpace (if c = '\n' then ' ' else c) = true := by
        rw [hsp c]; exact hc
      rw [pySplit_cons_space hc2, pySplit_cons_space hc, ih]

theorem collapseDouble_cons (d : Char) (rest : List Char) :
    ∃ Y, collapseDouble (d :: rest) = d :: Y := by
  cases rest with
  | nil => exact ⟨[], rfl⟩
  | cons e r2 =>
    by_cases h : d = ' ' ∧ e = ' '
    · refine ⟨collapseDouble r2, ?_⟩
      rw [show collapseDouble (d :: e :: r2) =
        if d = ' ' ∧ e = ' ' then ' ' :: collapseDouble r2
        else d :: collapseDouble (e :: r2) from rfl, if_pos h, h.1]
    · refine ⟨collapseDouble (e :: r2), ?_⟩
      rw [show collapseDouble (d :: e :: r2) =
        if d = ' ' ∧ e = ' ' then ' ' :: collapseDouble r2
        else d :: collapseDouble (e :: r2) from rfl, if_neg h]

theorem pySplit_collapseDouble : (s : List Char) →
    pySplit (collapseDouble s) = pySplit s
  | [] => rfl
  | [c] => rfl
  | c :: d :: rest => by
    rw [show collapseDouble (c :: d :: rest) =
      if c = ' ' ∧ d = ' ' then ' ' :: collapseDouble rest
      else c :: collapseDouble (d :: rest) from rfl]
    by_cases h : c = ' ' ∧ d = ' '
    · rw [if_pos h]
      have hsp : pyIsSpace ' ' = true := rfl
      rw [pySplit_cons_space hsp, pySplit_collapseDouble rest, h.1, h.2,
        pySplit_cons_space hsp, pySplit_cons_space hsp]
    · rw [if_neg h]
      rcases hc : pyIsSpace c with _ | _
      · obtain ⟨Y, hY⟩ := collapseDouble_cons d rest
        rcases hd : pyIsSpace d with _ | _
        · rw [hY, pySplit_cons_head_notspace hc hd, ← hY,
            pySplit_collapseDouble (d :: rest),
            pySplit_cons_head_notspace hc hd]
        · rw [hY, pySplit_cons_head_space hc (d :: Y) (by simp [hd]), ← hY,
            pySplit_collapseDouble (d :: rest),
            pySplit_cons_head_space hc (d :: rest) (by simp [hd])]
      · rw [pySplit_cons_space hc, pySplit_cons_space hc,
          pySplit_collapseDouble (d :: rest)]

theorem pySplit_normTexto (s : List Char) : pySplit (normTexto s) = pySplit s := by
  rw [normTexto, pySplit_collapseDouble, pySplit_nlToSpace, pySplit_pyStrip]

/-! ## Word preservation of the sentence splitter -/

theorem isPunct_not_space {c : Char} (h : isPunct c = true) :
    pyIsSpace c = false := by
  rw [isPunct] at h
  rcases Bool.or_eq_true_iff.mp h with h2 | h2
  · rcases Bool.or_eq_true_iff.mp h2 with h3 | h3 <;>
      simp only [decide_eq_true_eq] at h3 <;> subst h3 <;> rfl
  · simp only [decide_eq_true_eq] at h2; subst h2; rfl

theorem splitSentF_ne_nil : ∀ fuel s, splitSentF fuel s ≠ [] := by
  intro fuel
  induction fuel with
  | zero => intro s; simp [splitSentF]
  | succ f ih =>
    intro s
    cases s with
    | nil => simp [splitSentF]
    | cons c rest =>
      rw [splitSentF]
      by_cases hcond : isPunct c = true ∧ rest.head?.any pyIsSpace = true
      · rw [if_pos (by exact_mod_cast hcond)]
        simp
      · rw [if_neg (by exact_mod_cast hcond)]
        rcases hx : splitSentF f rest with _ | ⟨h, t⟩
        · exact absurd hx (ih rest)
        · simp [List.modifyHead]

theorem splitSentF_head : ∀ fuel s, ∃ h t,
    splitSentF fuel s = h :: t ∧ h.head? = s.head? := by
  intro fuel s
  cases fuel with
  | zero => exact ⟨s, [], rfl, rfl⟩
  | succ f =>
    cases s with
    | nil => exact ⟨[], [], rfl, rfl⟩
    | cons c rest =>
      rw [splitSentF]
      by_cases hcond : isPunct c = true ∧ rest.head?.any pyIsSpace = true
      · rw [if_pos (by exact_mod_cast hcond)]
        exact ⟨[c], _, rfl, rfl⟩
      · rw [if_neg (by exact_mod_cast hcond)]
        rcases hx : splitSentF f rest with _ | ⟨h, t⟩
        · exact absurd hx (splitSentF_ne_nil f rest)
        · exact ⟨c :: h, t, rfl, rfl⟩

theorem splitSentF_words : ∀ fuel s, s.length < fuel →
    ((splitSentF fuel s).map pySplit).flatten = pySplit s := by
  intro fuel
  induction fuel with
  | zero => intro s hs; exact absurd hs (by simp)
  | succ f ih =>
    intro s hs
    cases s with
    | nil => simp [splitSentF, pySplit_nil]
    | cons c rest =>
      have hrest : rest.length < f := by
        simpa [Nat.succ_lt_succ_iff] using hs
      rw [splitSentF]
      by_cases hcond : isPunct c = true ∧ rest.head?.any pyIsSpace = true
      · rw [if_pos (by exact_mod_cast hcond)]
        have hdrop : (rest.dropWhile pyIsSpace).length < f :=
          lt_of_le_of_lt (List.dropWhile_sublist pyIsSpace).length_le hrest
        have hcs : pyIsSpace c = false := isPunct_not_space hcond.1
        obtain ⟨d, hd, hds⟩ : ∃ d, rest.head? = some d ∧ pyIsSpace d = true := by
          rcases hh : rest.head? with _ | d
          · rw [hh] at hcond; simp [Option.any] at hcond
          · rw [hh] at hcond
            exact ⟨d, rfl, by simpa [Option.any] using hcond.2⟩
        rw [List.map_cons, List.flatten_cons, ih _ hdrop, pySplit_dropWhile,
          pySplit_single (by simp) (fun e he => by
            rcases List.mem_singleton.mp he with rfl; exact hcs),
          pySplit_cons_head_space hcs rest (by simp [hd, hds])]
        simp
      · rw [if_neg (by exact_mod_cast hcond)]
        obtain ⟨h, t, hht, hhd⟩ := splitSentF_head f rest
        rw [hht]
        have ihr : pySplit h ++ (t.map pySplit).flatten = pySplit rest := by
          have := ih rest hrest
          rw [hht] at this
          simpa using this
        rcases hc : pyIsSpace c with _ | _
        · rcases hh : rest.head? with _ | d
          · have hh2 : h.head? = none := by rw [hhd, hh]
            rw [List.modifyHead, List.map_cons, List.flatten_cons,
              pySplit_cons_head_space hc h (by rw [hh2]; rfl),
              pySplit_cons_head_space hc rest (by rw [hh]; rfl), ← ihr]
            simp
          · rcases hd : pyIsSpace d with _ | _
            · obtain ⟨h2, hh2⟩ : ∃ h2, h = d :: h2 := by
                cases h with
                | nil => rw [← hhd] at hh; simp at hh
                | cons x h2 =>
                  rw [← hhd] at hh
                  simp only [List.head?_cons, Option.some_inj] at hh
                  exact ⟨h2, by rw [hh]⟩
              subst hh2
              obtain ⟨r2, hr2⟩ : ∃ r2, rest = d :: r2 := by
                cases rest with
                | nil => simp at hh
                | cons x r2 =>
                  simp only [List.head?_cons, Option.some_inj] at hh
                  exact ⟨r2, by rw [hh]⟩
              subst hr2
              rw [List.modifyHead, List.map_cons, List.flatten_cons,
                pySplit_cons_head_notspace hc hd,
                pySplit_cons_head_notspace hc hd, ← ihr,
                modifyHead_append_left _ (pySplit_head_ne_nil hd h2) _]
            · have hh2 : h.head? = some d := by rw [hhd, hh]
              rw [List.modifyHead, List.map_cons, List.flatten_cons,
                pySplit_cons_head_space hc h (by rw [hh2]; simpa using hd),
                pySplit_cons_head_space hc rest (by rw [hh]; simpa using hd),
                ← ihr]
              simp
        · rw [List.modifyHead, List.map_cons, List.flatten_cons,
            pySplit_cons_space hc, pySplit_cons_space hc, ← ihr]

theorem splitSent_words (s : List Char) :
    ((splitSent s).map pySplit).flatten = pySplit s :=
  splitSentF_words (s.length + 1) s (Nat.lt_succ_self _)

/-! ## Word preservation of the packing loops -/

theorem hSpSpace : pyIsSpace ' ' = true := rfl

theorem stWords_packWordSrt (m : Nat) (st : PackSt) (w : List Char) :
    stWords (packWordSrt m st w) = stWords st ++ pySplit w := by
  rw [packWordSrt]
  by_cases hle : st.2.length + w.length + 1 ≤ m
  · rw [if_pos hle, stWords, stWords]
    simp only [pySplit_pyStrip, pySplit_append_space hSpSpace]
    rw [List.append_assoc]
  · rw [if_neg hle, stWords, stWords]
    by_cases hne : st.2 ≠ []
    · rw [if_pos hne]
      simp [List.append_assoc]
    · rw [if_neg hne]
      push_neg at hne
      rw [hne, pySplit_nil]
      simp

theorem stWords_foldl_word (m : Nat) : ∀ (ws : List (List Char)) (st : PackSt),
    stWords (ws.foldl (packWordSrt m) st) =
      stWords st ++ (ws.map pySplit).flatten := by
  intro ws
  induction ws with
  | nil => intro st; simp
  | cons w ws2 ih =>
    intro st
    rw [List.foldl_cons, ih, stWords_packWordSrt]
    simp [List.append_assoc]

theorem flatten_map_pySplit_pySplit (s : List Char) :
    ((pySplit s).map pySplit).flatten = pySplit s := by
  have : ∀ l : List (List Char), (∀ w ∈ l, pySplit w = [w]) →
      (l.map pySplit).flatten = l := by
    intro l
    induction l with
    | nil => intro _; rfl
    | cons w l2 ih =>
      intro h
      rw [List.map_cons, List.flatten_cons, h w (by simp),
        ih fun x hx => h x (by simp [hx])]
      rfl
  exact this _ fun w hw => pySplit_single (pySplit_clean hw).1 (pySplit_clean hw).2

theorem stWords_packFraseSrt (m : Nat) (st : PackSt) (f : List Char) :
    stWords (packFraseSrt m st f) = stWords st ++ pySplit f := by
  rw [packFraseSrt]
  simp only []
  by_cases hnil : pyStrip f = []
  · rw [if_pos hnil]
    have : pySplit f = [] := by rw [← pySplit_pyStrip, hnil, pySplit_nil]
    rw [this, List.append_nil]
  · rw [if_neg hnil]
    by_cases hle : st.2.length + (pyStrip f).length + 1 ≤ m
    · rw [if_pos hle, stWords, stWords]
      simp only [pySplit_pyStrip, pySplit_append_space hSpSpace]
      rw [List.append_assoc]
    · rw [if_neg hle]
      have hsegs : ∀ z : List (List Char),
          (((if st.2 ≠ [] then st.1 ++ [st.2] else st.1).map pySplit).flatten
            ++ z) = stWords st ++ z := by
        intro z
        by_cases hne : st.2 ≠ []
        · rw [if_pos hne, stWords]
          simp [List.append_assoc]
        · rw [if_neg hne, stWords]
          push_neg at hne
          rw [hne, pySplit_nil]
          simp
      by_cases hlong : m < (pyStrip f).length
      · rw [if_pos hlong, stWords_foldl_word, flatten_map_pySplit_pySplit,
          pySplit_pyStrip, stWords]
        rw [pySplit_nil, List.append_nil]
        exact hsegs _
      · rw [if_neg hlong, stWords]
        rw [pySplit_pyStrip]
        exact hsegs _

theorem stWords_foldl_frase (m : Nat) : ∀ (fs : List (List Char)) (st : PackSt),
    stWords (fs.foldl (packFraseSrt m) st) =
      stWords st ++ (fs.map pySplit).flatten := by
  intro fs
  induction fs with
  | nil => intro st; simp
  | cons f fs2 ih =>
    intro st
    rw [List.foldl_cons, ih, stWords_packFraseSrt]
    simp [List.append_assoc]

theorem take_all_space {t : List Char} (h : ∀ c ∈ t, pyIsSpace c = true)
    (m : Nat) : pySplit (t.take m) = [] :=
  pySplit_all_space fun c hc => h c (List.mem_of_mem_take hc)

/-- Word-sequence preservation of the SRT segmenter. -/
theorem dividirSrt_words (texto : List Char) (maxChars : Nat) :
    ((dividirTextoSegmentosSrt texto maxChars).map pySplit).flatten =
      pySplit texto := by
  rw [dividirTextoSegmentosSrt]
  simp only []
  by_cases hsmall : (normTexto texto).length ≤ maxChars
  · rw [if_pos hsmall]
    simp [pySplit_normTexto]
  · rw [if_neg hsmall]
    have hst := stWords_foldl_frase maxChars (splitSent (normTexto texto)) ([], [])
    rw [splitSent_words, pySplit_normTexto] at hst
    have hst2 : stWords ((splitSent (normTexto texto)).foldl
        (packFraseSrt maxChars) ([], [])) = pySplit texto := by
      rw [hst, stWords]
      simp [pySplit_nil]
    set st := (splitSent (normTexto texto)).foldl (packFraseSrt maxChars) ([], [])
      with hstdef
    have hsegs : ((if st.2 ≠ [] then st.1 ++ [st.2] else st.1).map
        pySplit).flatten = pySplit texto := by
      by_cases hne : st.2 ≠ []
      · rw [if_pos hne, ← hst2, stWords]
        simp
      · rw [if_neg hne, ← hst2, stWords]
        push_neg at hne
        rw [hne, pySplit_nil]
        simp
    by_cases hfin : (if st.2 ≠ [] then st.1 ++ [st.2] else st.1) ≠ []
    · rw [if_pos hfin]
      exact hsegs
    · rw [if_neg hfin]
      push_neg at hfin
      rw [hfin] at hsegs
      simp only [List.map_nil, List.flatten_nil] at hsegs
      have hall : ∀ c ∈ normTexto texto, pyIsSpace c = true := by
        have : pySplit (normTexto texto) = [] := by
          rw [pySplit_normTexto]; exact hsegs.symm
        exact (pySplit_eq_nil _).mp this
      rw [List.map_cons, List.map_nil, List.flatten_cons, List.flatten_nil,
        take_all_space hall, List.append_nil, ← hsegs]

/-! ## Segment size invariant -/

theorem segOk_strip_append {m : Nat} {a b : List Char}
    (h : a.length + b.length + 1 ≤ m) :
    SegOk m (pyStrip (a ++ ' ' :: b)) := by
  left
  calc (pyStrip (a ++ ' ' :: b)).length ≤ (a ++ ' ' :: b).length :=
      pyStrip_length_le _
    _ = a.length + b.length + 1 := by simp [List.length_append]; omega
    _ ≤ m := h

theorem packInv_flush {m : Nat} {st : PackSt} (h : PackInv m st) :
    ∀ x ∈ (if st.2 ≠ [] then st.1 ++ [st.2] else st.1), SegOk m x := by
  by_cases hne : st.2 ≠ []
  · rw [if_pos hne]
    intro x hx
    rcases List.mem_append.mp hx with hx2 | hx2
    · exact h.1 x hx2
    · rcases List.mem_singleton.mp hx2 with rfl
      exact h.2
  · rw [if_neg hne]
    exact h.1

theorem packWordSrt_inv {m : Nat} {st : PackSt} {w : List Char}
    (hst : PackInv m st) (hw : WordOk w) : PackInv m (packWordSrt m st w) := by
  rw [packWordSrt]
  by_cases hle : st.2.length + w.length + 1 ≤ m
  · rw [if_pos hle]
    exact ⟨hst.1, segOk_strip_append hle⟩
  · rw [if_neg hle]
    exact ⟨packInv_flush hst, Or.inr (pySplit_single hw.1 hw.2)⟩

theorem packWordSrt_foldl_inv {m : Nat} :
    ∀ (ws : List (List Char)) (st : PackSt), (∀ w ∈ ws, WordOk w) →
      PackInv m st → PackInv m (ws.foldl (packWordSrt m) st) := by
  intro ws
  induction ws with
  | nil => intro st _ h; exact h
  | cons w ws2 ih =>
    intro st hws h
    rw [List.foldl_cons]
    exact ih _ (fun x hx => hws x (by simp [hx]))
      (packWordSrt_inv h (hws w (by simp)))

theorem packFraseSrt_inv {m : Nat} {st : PackSt} {f : List Char}
    (hst : PackInv m st) : PackInv m (packFraseSrt m st f) := by
  rw [packFraseSrt]
  simp only []
  by_cases hnil : pyStrip f = []
  · rw [if_pos hnil]; exact hst
  · rw [if_neg hnil]
    by_cases hle : st.2.length + (pyStrip f).length + 1 ≤ m
    · rw [if_pos hle]
      exact ⟨hst.1, segOk_strip_append hle⟩
    · rw [if_neg hle]
      by_cases hlong : m < (pyStrip f).length
      · rw [if_pos hlong]
        refine packWordSrt_foldl_inv _ _ (fun w hw => ?_) ⟨packInv_flush hst, ?_⟩
        · exact ⟨(pySplit_clean hw).1, (pySplit_clean hw).2⟩
        · left; simp
      · rw [if_neg hlong]
        exact ⟨packInv_flush hst, Or.inl (Nat.le_of_not_lt hlong)⟩

theorem packFraseSrt_foldl_inv {m : Nat} :
    ∀ (fs : List (List Char)) (st : PackSt), PackInv m st →
      PackInv m (fs.foldl (packFraseSrt m) st) := by
  intro fs
  induction fs with
  | nil => intro st h; exact h
  | cons f fs2 ih =>
    intro st h
    rw [List.foldl_cons]
    exact ih _ (packFraseSrt_inv h)

/-- Every segment of the SRT segmenter respects the budget or is a single
oversized word. -/
theorem dividirSrt_segOk (texto : List Char) (maxChars : Nat) :
    ∀ seg ∈ dividirTextoSegmentosSrt texto maxChars, SegOk maxChars seg := by
  rw [dividirTextoSegmentosSrt]
  simp only []
  by_cases hsmall : (normTexto texto).length ≤ maxChars
  · rw [if_pos hsmall]
    intro seg hseg
    rcases List.mem_singleton.mp hseg with rfl
    exact Or.inl hsmall
  · rw [if_neg hsmall]
    set st := (splitSent (normTexto texto)).foldl (packFraseSrt maxChars) ([], [])
      with hstdef
    have hinv : PackInv maxChars st :=
      packFraseSrt_foldl_inv _ _ ⟨by simp, Or.inl (by simp)⟩
    by_cases hfin : (if st.2 ≠ [] then st.1 ++ [st.2] else st.1) ≠ []
    · rw [if_pos hfin]
      exact packInv_flush hinv
    · rw [if_neg hfin]
      intro seg hseg
      rcases List.mem_singleton.mp hseg with rfl
      exact Or.inl (by simp [List.length_take_le])

/-- The SRT segmenter never returns the empty list. -/
theorem dividirSrt_ne_nil (texto : List Char) (maxChars : Nat) :
    dividirTextoSegmentosSrt texto maxChars ≠ [] := by
  rw [dividirTextoSegmentosSrt]
  simp only []
  by_cases hsmall : (normTexto texto).length ≤ maxChars
  · rw [if_pos hsmall]; simp
  · rw [if_neg hsmall]
    set st := (splitSent (normTexto texto)).foldl (packFraseSrt maxChars) ([], [])
    by_cases hfin : (if st.2 ≠ [] then st.1 ++ [st.2] else st.1) ≠ []
    · rw [if_pos hfin]; exact hfin
    · rw [if_neg hfin]; simp

/-! ## The video segmenter computes the same segments -/

theorem packWord_eq {m : Nat} {st : PackSt} {w : List Char}
    (hst : StFix st) (hw : WordOk w) :
    packWordVid m st w = packWordSrt m st w ∧
      StFix (packWordSrt m st w) := by
  rw [packWordVid, packWordSrt]
  by_cases hle : st.2.length + w.length + 1 ≤ m
  · rw [if_pos hle, if_neg (Nat.not_lt.mpr hle)]
    exact ⟨rfl, pyStrip_idem _⟩
  · rw [if_neg hle, if_pos (Nat.lt_of_not_le hle)]
    refine ⟨?_, pyStrip_clean hw.2⟩
    rw [StFix] at hst
    rw [hst]

theorem packWord_foldl_eq {m : Nat} :
    ∀ (ws : List (List Char)) (st : PackSt), (∀ w ∈ ws, WordOk w) →
      StFix st →
      ws.foldl (packWordVid m) st = ws.foldl (packWordSrt m) st ∧
        StFix (ws.foldl (packWordSrt m) st) := by
  intro ws
  induction ws with
  | nil => intro st _ h; exact ⟨rfl, h⟩
  | cons w ws2 ih =>
    intro st hws h
    obtain ⟨he, hf⟩ := packWord_eq (m := m) h (hws w (by simp))
    rw [List.foldl_cons, List.foldl_cons, he]
    exact ih _ (fun x hx => hws x (by simp [hx])) hf

theorem packFrase_eq {m : Nat} {st : PackSt} (f : List Char) (hst : StFix st) :
    packFraseVid m st f = packFraseSrt m st f ∧
      StFix (packFraseSrt m st f) := by
  rw [packFraseVid, packFraseSrt]
  simp only []
  by_cases hnil : pyStrip f = []
  · rw [if_pos hnil, if_pos hnil]
    exact ⟨rfl, hst⟩
  · rw [if_neg hnil, if_neg hnil]
    by_cases hle : st.2.length + (pyStrip f).length + 1 ≤ m
    · rw [if_pos hle, if_neg (Nat.not_lt.mpr hle)]
      exact ⟨rfl, pyStrip_idem _⟩
    · rw [if_neg hle, if_pos (Nat.lt_of_not_le hle)]
      have hsegs : (if st.2 ≠ [] then st.1 ++ [pyStrip st.2] else st.1) =
          (if st.2 ≠ [] then st.1 ++ [st.2] else st.1) := by
        rw [StFix] at hst
        rw [hst]
      rw [hsegs]
      by_cases hlong : m < (pyStrip f).length
      · rw [if_pos hlong, if_pos hlong]
        exact packWord_foldl_eq _ _
          (fun w hw => ⟨(pySplit_clean hw).1, (pySplit_clean hw).2⟩) rfl
      · rw [if_neg hlong, if_neg hlong]
        exact ⟨rfl, pyStrip_idem f⟩

theorem packFrase_foldl_eq {m : Nat} :
    ∀ (fs : List (List Char)) (st : PackSt), StFix st →
      fs.foldl (packFraseVid m) st = fs.foldl (packFraseSrt m) st ∧
        StFix (fs.foldl (packFraseSrt m) st) := by
  intro fs
  induction fs with
  | nil => intro st h; exact ⟨rfl, h⟩
  | cons f fs2 ih =>
    intro st h
    obtain ⟨he, hf⟩ := packFrase_eq (m := m) f h
    rw [List.foldl_cons, List.foldl_cons, he]
    exact ih _ hf

/-- The video-caption segmenter and the SRT segmenter agree whenever they are
given the same character budget. -/
theorem dividir_eq (texto : List Char) (legendasLinhas : Nat) :
    dividirTextoSegmentos texto legendasLinhas =
      dividirTextoSegmentosSrt texto (min (legendasLinhas * 40) 120) := by
  rw [dividirTextoSegmentos, dividirTextoSegmentosSrt]
  simp only []
  by_cases hsmall : (normTexto texto).length ≤ min (legendasLinhas * 40) 120
  · rw [if_pos hsmall, if_pos hsmall]
  · rw [if_neg hsmall, if_neg hsmall]
    obtain ⟨he, hf⟩ := packFrase_foldl_eq (m := min (legendasLinhas * 40) 120)
      (splitSent (normTexto texto)) ([], []) rfl
    rw [he]
    set st := (splitSent (normTexto texto)).foldl
      (packFraseSrt (min (legendasLinhas * 40) 120)) ([], [])
    rw [show pyStrip st.2 = st.2 from hf]

/-! ## The SRT line formatter only drops a suffix of words per line break -/

theorem pySplit_joinSpace : ∀ ws : List (List Char), (∀ w ∈ ws, WordOk w) →
    pySplit (joinSpace ws) = ws := by
  intro ws
  induction ws with
  | nil => intro _; rfl
  | cons w ws2 ih =>
    intro h
    cases ws2 with
    | nil =>
      rw [show joinSpace [w] = w from rfl]
      exact pySplit_single (h w (by simp)).1 (h w (by simp)).2
    | cons x ws3 =>
      rw [show joinSpace (w :: x :: ws3) = w ++ ' ' :: joinSpace (x :: ws3)
        from rfl]
      rw [pySplit_append_space hSpSpace,
        pySplit_single (h w (by simp)).1 (h w (by simp)).2,
        ih fun y hy => h y (by simp [hy])]
      rfl

theorem pySplit_joinLinhas : ∀ ls : List (List (List Char)),
    (∀ l ∈ ls, ∀ w ∈ l, WordOk w) →
    pySplit (joinLinhas ls) = ls.flatten := by
  intro ls
  induction ls with
  | nil => intro _; rfl
  | cons l ls2 ih =>
    intro h
    cases ls2 with
    | nil =>
      rw [show joinLinhas [l] = joinSpace l from rfl,
        pySplit_joinSpace l (h l (by simp))]
      simp
    | cons l2 ls3 =>
      rw [show joinLinhas (l :: l2 :: ls3) =
        joinSpace l ++ '\n' :: joinLinhas (l2 :: ls3) from rfl]
      rw [pySplit_append_space (show pyIsSpace '\n' = true from rfl),
        pySplit_joinSpace l (h l (by simp)),
        ih fun x hx => h x (by simp [hx])]
      simp

theorem fmtLoop_sublist (c : Nat) : ∀ (ws : List (List Char))
    (linhas : List (List (List Char))) (linha : List (List Char)) (tam : Nat),
    (fmtLoop c linhas linha tam ws).flatten.Sublist
      ((linhas.flatten ++ linha) ++ ws) := by
  intro ws
  induction ws with
  | nil =>
    intro linhas linha tam
    rw [fmtLoop]
    by_cases hcond : linha ≠ [] ∧ linhas.length < 2
    · rw [if_pos hcond, List.flatten_append]
      simp
    · rw [if_neg hcond]
      simp only [List.append_nil]
      exact (List.sublist_append_left _ _)
  | cons p rest ih =>
    intro linhas linha tam
    rw [fmtLoop]
    by_cases hfits : tam + p.length + 1 ≤ c
    · rw [if_pos hfits]
      have heq : (linhas.flatten ++ (linha ++ [p])) ++ rest =
          (linhas.flatten ++ linha) ++ p :: rest := by simp
      exact heq ▸ ih linhas (linha ++ [p]) (tam + p.length + 1)
    · rw [if_neg hfits]
      simp only []
      set linhas2 := if linha ≠ [] then linhas ++ [linha] else linhas with hl2
      have hflat : linhas2.flatten.Sublist (linhas.flatten ++ linha) := by
        rw [hl2]
        by_cases hne : linha ≠ []
        · rw [if_pos hne, List.flatten_append]
          simp
        · rw [if_neg hne]
          exact List.sublist_append_left _ _
      by_cases hbrk : 2 ≤ linhas2.length
      · rw [if_pos hbrk]
        exact hflat.trans (List.sublist_append_left _ _)
      · rw [if_neg hbrk]
        have heq : (linhas2.flatten ++ [p]) ++ rest =
            linhas2.flatten ++ p :: rest := by simp
        exact (heq ▸ ih linhas2 [p] p.length).trans
          (hflat.append (List.Sublist.refl (p :: rest)))

theorem flatten_take_sublist {α : Type} (n : Nat) (l : List (List α)) :
    (l.take n).flatten.Sublist l.flatten := by
  conv_rhs => rw [← List.take_append_drop n l]
  rw [List.flatten_append]
  exact List.sublist_append_left _ _

/-- The words of a formatted SRT entry are, in order, among the words of the
segment it formats (the two-line cap may drop a suffix). -/
theorem formatarTextoSrt_sublist (texto : List Char) (c : Nat) :
    (pySplit (formatarTextoSrt texto c)).Sublist (pySplit texto) := by
  rw [formatarTextoSrt]
  by_cases hsmall : (normTexto texto).length ≤ c
  · rw [if_pos hsmall, pySplit_normTexto]
  · rw [if_neg hsmall]
    set t := normTexto texto with ht
    set R := fmtLoop c [] [] 0 (pySplit t) with hR
    have hsub : R.flatten.Sublist (pySplit t) := by
      have := fmtLoop_sublist c (pySplit t) [] [] 0
      simpa using this
    have hclean : ∀ l ∈ R.take 2, ∀ w ∈ l, WordOk w := by
      intro l hl w hw
      have hwmem : w ∈ R.flatten :=
        List.mem_flatten.mpr ⟨l, List.mem_of_mem_take hl, hw⟩
      have : w ∈ pySplit t := hsub.subset hwmem
      exact ⟨(pySplit_clean this).1, (pySplit_clean this).2⟩
    rw [pySplit_joinLinhas _ hclean]
    have h2 := (flatten_take_sublist 2 R).trans hsub
    rw [ht, pySplit_normTexto] at h2
    exact h2

/-! ## Structure of the generated subtitle track -/

theorem duracaoSlideSrt_nonneg {te tm : ℚ} (hte : 0 ≤ te) (htm : 0 ≤ tm)
    (d : ℚ) : 0 ≤ duracaoSlideSrt te tm d := by
  rw [duracaoSlideSrt]
  by_cases hd : 0 < d
  · rw [if_pos hd]
    exact le_of_lt (add_pos_of_pos_of_nonneg hd hte)
  · rw [if_neg hd]
    exact htm

theorem durTotal_nonneg {te tm : ℚ} (hte : 0 ≤ te) (htm : 0 ≤ tm) :
    ∀ slides, 0 ≤ durTotal te tm slides := by
  intro slides
  induction slides with
  | nil => exact le_refl 0
  | cons s rest ih =>
    rw [durTotal]
    exact add_nonneg (duracaoSlideSrt_nonneg hte htm _) ih

theorem slideEntries_length (t dps : ℚ) :
    ∀ (segs : List (List Char)) (c k : Nat),
      (slideEntries t dps c k segs).length = segs.length := by
  intro segs
  induction segs with
  | nil => intro c k; rfl
  | cons seg rest ih => intro c k; simp [slideEntries, ih]

theorem slideEntries_map_indice (t dps : ℚ) :
    ∀ (segs : List (List Char)) (c k : Nat),
      (slideEntries t dps c k segs).map SrtEntry.indice =
        List.range' c segs.length := by
  intro segs
  induction segs with
  | nil => intro c k; rfl
  | cons seg rest ih =>
    intro c k
    rw [slideEntries, List.map_cons, ih, List.length_cons, List.range'_succ]

theorem slideEntries_map_texto (t dps : ℚ) :
    ∀ (segs : List (List Char)) (c k : Nat),
      (slideEntries t dps c k segs).map SrtEntry.texto =
        segs.map (fun seg => formatarTextoSrt seg 60) := by
  intro segs
  induction segs with
  | nil => intro c k; rfl
  | cons seg rest ih =>
    intro c k
    rw [slideEntries, List.map_cons, List.map_cons, ih]

theorem slideEntries_chain (t dps : ℚ) :
    ∀ (segs : List (List Char)) (c k : Nat),
      List.Chain' (fun a b => a.fim ≤ b.inicio)
        (slideEntries t dps c k segs) := by
  intro segs
  induction segs with
  | nil => intro c k; exact List.chain'_nil
  | cons seg rest ih =>
    intro c k
    rw [slideEntries]
    rw [List.chain'_cons']
    refine ⟨?_, ih (c + 1) (k + 1)⟩
    intro b hb
    cases rest with
    | nil => simp [slideEntries] at hb
    | cons seg2 rest2 =>
      rw [slideEntries] at hb
      simp only [List.head?_cons, Option.mem_def, Option.some_inj] at hb
      subst hb
      simp

theorem slideEntries_bounds {dps : ℚ} (hdps : 0 ≤ dps) (t : ℚ) :
    ∀ (segs : List (List Char)) (c k : Nat),
      ∀ e ∈ slideEntries t dps c k segs,
        t + k * dps ≤ e.inicio ∧ e.fim ≤ t + (k + segs.length) * dps := by
  intro segs
  induction segs with
  | nil => intro c k e he; simp [slideEntries] at he
  | cons seg rest ih =>
    intro c k e he
    rw [slideEntries] at he
    have hr : (0 : ℚ) ≤ (rest.length : ℚ) := by positivity
    rcases List.mem_cons.mp he with rfl | he2
    · constructor
      · simp
      · simp only [List.length_cons]
        push_cast
        ring_nf
        nlinarith [hr, hdps]
    · obtain ⟨hlo, hhi⟩ := ih (c + 1) (k + 1) e he2
      push_cast at hlo hhi
      constructor
      · have h2 : t + (k : ℚ) * dps ≤ t + ((k : ℚ) + 1) * dps := by
          ring_nf
          nlinarith [hdps]
        exact le_trans h2 hlo
      · refine le_trans hhi ?_
        simp only [List.length_cons]
        push_cast
        ring_nf
        nlinarith [hdps]

/-- Indices, chain order and time bounds of the generated track, in one
induction over the slide list. -/
theorem gerarSrtCore_ok {te tm : ℚ} (hte : 0 ≤ te) (htm : 0 ≤ tm)
    (mc : Nat) : ∀ (slides : List SlideSrt) (t : ℚ) (c : Nat),
    (gerarSrtCore te tm mc t c slides).map SrtEntry.indice =
      List.range' c (gerarSrtCore te tm mc t c slides).length ∧
    List.Chain' (fun a b => a.fim ≤ b.inicio) (gerarSrtCore te tm mc t c slides) ∧
    ∀ e ∈ gerarSrtCore te tm mc t c slides,
      t ≤ e.inicio ∧ e.fim ≤ t + durTotal te tm slides := by
  intro slides
  induction slides with
  | nil =>
    intro t c
    refine ⟨rfl, List.chain'_nil, ?_⟩
    intro e he
    simp [gerarSrtCore] at he
  | cons s rest ih =>
    intro t c
    set dur := duracaoSlideSrt te tm s.duracaoAudio with hdur
    have hdur0 : 0 ≤ dur := duracaoSlideSrt_nonneg hte htm _
    have hskip : ∀ t2 c2, gerarSrtCore te tm mc t2 c2 rest =
        gerarSrtCore te tm mc t2 c2 rest := fun _ _ => rfl
    have htot : durTotal te tm (s :: rest) = dur + durTotal te tm rest := rfl
    rw [gerarSrtCore]
    by_cases hblank : pyStrip s.texto = []
    · rw [if_pos hblank]
      obtain ⟨h1, h2, h3⟩ := ih (t + dur) c
      refine ⟨h1, h2, ?_⟩
      intro e he
      obtain ⟨hlo, hhi⟩ := h3 e he
      constructor
      · linarith
      · rw [htot]; linarith
    · rw [if_neg hblank]
      set segs := dividirTextoSegmentosSrt s.texto mc with hsegs
      by_cases hn : segs.length = 0
      · rw [if_pos hn]
        obtain ⟨h1, h2, h3⟩ := ih (t + dur) c
        refine ⟨h1, h2, ?_⟩
        intro e he
        obtain ⟨hlo, hhi⟩ := h3 e he
        refine ⟨by linarith, ?_⟩
        rw [htot]; linarith
      · rw [if_neg hn]
        set dps := dur / (segs.length : ℚ) with hdps
        have hdps0 : 0 ≤ dps := by
          rw [hdps]
          apply div_nonneg hdur0
          positivity
        have hmul : (segs.length : ℚ) * dps = dur := by
          rw [hdps]
          field_simp
        obtain ⟨h1, h2, h3⟩ := ih (t + dur) (c + segs.length)
        have hlen := slideEntries_length t dps segs c 0
        refine ⟨?_, ?_, ?_⟩
        · rw [List.map_append, slideEntries_map_indice, h1, List.length_append,
            hlen]
          rw [show List.range' c segs.length ++
              List.range' (c + segs.length) (gerarSrtCore te tm mc (t + dur)
                (c + segs.length) rest).length =
              List.range' c ((gerarSrtCore te tm mc (t + dur)
                (c + segs.length) rest).length + segs.length) from
            List.range'_append_1 _ _ _]
          rw [Nat.add_comm]
        · rw [List.chain'_append]
          refine ⟨slideEntries_chain t dps segs c 0, h2, ?_⟩
          intro x hx y hy
          have hxmem : x ∈ slideEntries t dps c 0 segs :=
            List.mem_of_mem_getLast? hx
          have hymem : y ∈ gerarSrtCore te tm mc (t + dur) (c + segs.length)
              rest := List.mem_of_mem_head? hy
          have hxb := (slideEntries_bounds hdps0 t segs c 0 x hxmem).2
          have hyb := (h3 y hymem).1
          simp only [Nat.cast_zero, zero_add] at hxb
          have : x.fim ≤ t + dur := by
            rw [← hmul]
            exact hxb
          linarith
        · intro e he
          rcases List.mem_append.mp he with he2 | he2
          · obtain ⟨hlo, hhi⟩ := slideEntries_bounds hdps0 t segs c 0 e he2
            simp only [Nat.cast_zero, zero_add] at hlo hhi
            rw [hmul] at hhi
            constructor
            · simpa using hlo
            · rw [htot]
              have := durTotal_nonneg hte htm rest
              linarith
          · obtain ⟨hlo, hhi⟩ := h3 e he2
            refine ⟨by linarith, ?_⟩
            rw [htot]
            linarith

/-- Shifting the running clock shifts every entry's times and nothing else. -/
theorem gerarSrtCore_shift (te tm : ℚ) (mc : Nat) :
    ∀ (slides : List SlideSrt) (t d : ℚ) (c : Nat),
    gerarSrtCore te tm mc (t + d) c slides =
      (gerarSrtCore te tm mc t c slides).map
        (fun e => ⟨e.indice, e.inicio + d, e.fim + d, e.texto⟩) := by
  have hentries : ∀ (segs : List (List Char)) (t d dps : ℚ) (c k : Nat),
      slideEntries (t + d) dps c k segs =
        (slideEntries t dps c k segs).map
          (fun e => ⟨e.indice, e.inicio + d, e.fim + d, e.texto⟩) := by
    intro segs
    induction segs with
    | nil => intro t d dps c k; rfl
    | cons seg rest ih =>
      intro t d dps c k
      rw [slideEntries, slideEntries, List.map_cons, ih]
      congr 1
      simp only [SrtEntry.mk.injEq, true_and, and_true]
      exact ⟨by ring, by ring⟩
  intro slides
  induction slides with
  | nil => intro t d c; rfl
  | cons s rest ih =>
    intro t d c
    rw [gerarSrtCore, gerarSrtCore]
    by_cases hblank : pyStrip s.texto = []
    · simp only [if_pos hblank]
      rw [show t + d + duracaoSlideSrt te tm s.duracaoAudio =
        (t + duracaoSlideSrt te tm s.duracaoAudio) + d from by ring, ih]
    · simp only [if_neg hblank]
      by_cases hn : (dividirTextoSegmentosSrt s.texto mc).length = 0
      · simp only [if_pos hn]
        rw [show t + d + duracaoSlideSrt te tm s.duracaoAudio =
          (t + duracaoSlideSrt te tm s.duracaoAudio) + d from by ring, ih]
      · simp only [if_neg hn]
        rw [List.map_append, hentries,
          show t + d + duracaoSlideSrt te tm s.duracaoAudio =
            (t + duracaoSlideSrt te tm s.duracaoAudio) + d from by ring, ih]

/-! ## Karaoke clip structure -/

theorem chunkF_flatten : ∀ (fuel k : Nat) (l : List (List Char)),
    l.length ≤ fuel → 1 ≤ k → (chunkF fuel k l).flatten = l := by
  intro fuel
  induction fuel with
  | zero =>
    intro k l hl _
    rw [show l = [] from List.length_eq_zero.mp (Nat.le_zero.mp hl)]
    rfl
  | succ f ih =>
    intro k l hl hk
    cases l with
    | nil => rfl
    | cons x l2 =>
      rw [show chunkF (f + 1) k (x :: l2) =
        (x :: l2).take k :: chunkF f k ((x :: l2).drop k) from rfl,
        List.flatten_cons, ih k _ (by
          simp only [List.length_drop, List.length_cons] at hl ⊢
          omega) hk,
        List.take_append_drop]

theorem chunkF_mem : ∀ (fuel k : Nat) (l : List (List Char)),
    l.length ≤ fuel → 1 ≤ k →
    ∀ g ∈ chunkF fuel k l, g ≠ [] ∧ g.length ≤ k := by
  intro fuel
  induction fuel with
  | zero =>
    intro k l hl _ g hg
    rw [show l = [] from List.length_eq_zero.mp (Nat.le_zero.mp hl)] at hg
    simp [chunkF] at hg
  | succ f ih =>
    intro k l hl hk g hg
    cases l with
    | nil => simp [chunkF] at hg
    | cons x l2 =>
      rw [show chunkF (f + 1) k (x :: l2) =
        (x :: l2).take k :: chunkF f k ((x :: l2).drop k) from rfl] at hg
      rcases List.mem_cons.mp hg with rfl | hg2
      · constructor
        · obtain ⟨k2, rfl⟩ : ∃ k2, k = k2 + 1 := ⟨k - 1, by omega⟩
          simp
        · exact List.length_take_le _ _
      · exact ih k _ (by
          simp only [List.length_drop, List.length_cons] at hl ⊢
          omega) hk g hg2

theorem emitClips_map_grupo (a : Bool) (tpf ex : ℚ) (n : Nat) :
    ∀ (gs : List (List (List Char))) (i : Nat),
      (emitClips a tpf ex n i gs).map ClipKaraoke.grupo = gs := by
  intro gs
  induction gs with
  | nil => intro i; rfl
  | cons g gs2 ih => intro i; simp [emitClips, ih]

theorem emitClips_dur_sum (a : Bool) (tpf ex : ℚ) (n : Nat) :
    ∀ (gs : List (List (List Char))) (i : Nat), i + gs.length = n → gs ≠ [] →
      ((emitClips a tpf ex n i gs).map ClipKaraoke.dur).sum =
        gs.length * tpf + ex := by
  intro gs
  induction gs with
  | nil => intro i _ hne; exact absurd rfl hne
  | cons g gs2 ih =>
    intro i hn hne
    cases gs2 with
    | nil =>
      have hi : i = n - 1 := by simp at hn; omega
      rw [emitClips, if_pos hi]
      simp [emitClips]
    | cons g2 gs3 =>
      have hi : ¬ i = n - 1 := by simp at hn; omega
      rw [emitClips, if_neg hi]
      rw [List.map_cons, List.sum_cons, ih (i + 1) (by simp at hn ⊢; omega)
        (by simp)]
      simp only [List.length_cons]
      push_cast
      ring

theorem emitClips_countP_audio_pos (a : Bool) (tpf ex : ℚ) (n : Nat) :
    ∀ (gs : List (List (List Char))) (i : Nat), 1 ≤ i →
      (emitClips a tpf ex n i gs).countP (fun c => c.audio) = 0 := by
  intro gs
  induction gs with
  | nil => intro i _; rfl
  | cons g gs2 ih =>
    intro i hi
    rw [emitClips, List.countP_cons, ih (i + 1) (by omega)]
    have h0 : ¬ i = 0 := by omega
    simp [h0]

theorem emitClips_dur_const (a : Bool) (tpf : ℚ) (n : Nat) :
    ∀ (gs : List (List (List Char))) (i : Nat),
      ∀ c ∈ emitClips a tpf 0 n i gs, c.dur = tpf := by
  intro gs
  induction gs with
  | nil => intro i c hc; simp [emitClips] at hc
  | cons g gs2 ih =>
    intro i c hc
    rw [emitClips] at hc
    rcases List.mem_cons.mp hc with rfl | hc2
    · by_cases hi : i = n - 1
      · simp [if_pos hi]
      · simp [if_neg hi]
    · exact ih (i + 1) c hc2

theorem gerarClipsKaraoke_eq (texto : List Char) (ds : ℚ) (a : Bool)
    (dA : Option ℚ) :
    gerarClipsKaraoke texto ds a dA =
      if (kPalavras texto).length = 0 then []
      else
        emitClips a (kDpp ds dA / ((kGrupos texto ds dA).length : ℚ))
          (max 0 (ds - kDpp ds dA)) (kGrupos texto ds dA).length 0
          (kGrupos texto ds dA) := rfl

theorem chunkPalavras_flatten {k : Nat} (hk : 1 ≤ k) (l : List (List Char)) :
    (chunkPalavras k l).flatten = l :=
  chunkF_flatten l.length k l (le_refl _) hk

theorem kGrupos_flatten (texto : List Char) (ds : ℚ) (dA : Option ℚ) :
    (kGrupos texto ds dA).flatten = kPalavras texto := by
  rw [kGrupos]
  by_cases h : kTpp texto ds dA < 3 / 10
  · rw [if_pos h]
    exact chunkPalavras_flatten (le_max_left _ _) _
  · rw [if_neg h]
    induction kPalavras texto with
    | nil => rfl
    | cons p ps ih => simp_all

theorem kGrupos_ne_nil (texto : List Char) (ds : ℚ) (dA : Option ℚ)
    (hw : kPalavras texto ≠ []) : kGrupos texto ds dA ≠ [] := by
  intro hnil
  have := kGrupos_flatten texto ds dA
  rw [hnil] at this
  exact hw this.symm

/-- Duration conservation: the emitted clip durations always sum to
`dpp + max 0 (duracao_slide - dpp)`. -/
theorem gerarClips_sum_raw (texto : List Char) (ds : ℚ) (a : Bool)
    (dA : Option ℚ) (hw : kPalavras texto ≠ []) :
    ((gerarClipsKaraoke texto ds a dA).map ClipKaraoke.dur).sum =
      kDpp ds dA + max 0 (ds - kDpp ds dA) := by
  rw [gerarClipsKaraoke_eq,
    if_neg (fun h => hw (List.length_eq_zero.mp h))]
  have hne := kGrupos_ne_nil texto ds dA hw
  rw [emitClips_dur_sum _ _ _ _ _ 0 (Nat.zero_add _) hne]
  have hlen : ((kGrupos texto ds dA).length : ℚ) ≠ 0 := by
    simpa using fun h => hne (List.length_eq_zero.mp h)
  field_simp

/-- With a governing audio duration bounded by the slide duration (which the
caller guarantees), durations sum exactly to the slide duration. -/
theorem gerarClips_sum (texto : List Char) (ds : ℚ) (a : Bool)
    (dA : Option ℚ) (hw : kPalavras texto ≠ [])
    (hd : ∀ q, dA = some q → 0 < q → q ≤ ds) :
    ((gerarClipsKaraoke texto ds a dA).map ClipKaraoke.dur).sum = ds := by
  rw [gerarClips_sum_raw texto ds a dA hw]
  rcases dA with _ | q
  · rw [kDpp]
    simp
  · rw [kDpp]
    by_cases hq : 0 < q
    · rw [if_pos hq]
      have hle : q ≤ ds := hd q rfl hq
      rw [max_eq_right (by linarith)]
      ring
    · rw [if_neg hq]
      simp

/-- Audio attachment: exactly the first clip carries audio when the audio
loads, no clip does otherwise. -/
theorem gerarClips_audio (texto : List Char) (ds : ℚ) (a : Bool)
    (dA : Option ℚ) (hw : kPalavras texto ≠ []) :
    (gerarClipsKaraoke texto ds a dA).countP (fun c => c.audio) =
      (if a then 1 else 0) ∧
    ((gerarClipsKaraoke texto ds a dA).head?.map (fun c => c.audio)) =
      some a := by
  rw [gerarClipsKaraoke_eq,
    if_neg (fun h => hw (List.length_eq_zero.mp h))]
  have hne := kGrupos_ne_nil texto ds dA hw
  rcases hg : kGrupos texto ds dA with _ | ⟨g, gs⟩
  · exact absurd hg hne
  · rw [emitClips, List.countP_cons,
      emitClips_countP_audio_pos _ _ _ _ _ 1 (le_refl 1)]
    constructor
    · cases a <;> simp
    · cases a <;> simp

/-! ## The caller's guarantee: word-timing duration never exceeds the slide
duration -/

theorem real_le_core (M S te tm val : ℚ) (hte : 0 ≤ te)
    (hval : 0 < val → val ≤ M) :
    0 < (if val ≤ 0 then M else val) →
    (if val ≤ 0 then M else val) ≤
      (if 0 < (if M ≤ 0 then S else M)
       then (if M ≤ 0 then S else M) + te else tm) := by
  by_cases hv : val ≤ 0
  · rw [if_pos hv]
    intro hM
    rw [if_neg (show ¬ M ≤ 0 from by linarith), if_pos hM]
    linarith
  · rw [if_neg hv]
    intro hval0
    have hM : 0 < M := lt_of_lt_of_le hval0 (hval hval0)
    rw [if_neg (show ¬ M ≤ 0 from by linarith), if_pos hM]
    have := hval hval0
    linarith

/-- In `gerar_video`, `duracao_audio_real` is at most `duracao` whenever it
is positive (`tempo_extra_slide ≥ 0`). -/
theorem resolver_real_le (info : SlideAudioInfo) (usarTrad : Bool)
    (te tm : ℚ) (hte : 0 ≤ te) :
    0 < (resolverTimingSlide (some info) usarTrad te tm).duracaoAudioReal →
    (resolverTimingSlide (some info) usarTrad te tm).duracaoAudioReal ≤
      (resolverTimingSlide (some info) usarTrad te tm).duracao := by
  rw [resolverTimingSlide]
  simp only []
  cases usarTrad with
  | true =>
    cases htrad : info.tradEx with
    | true =>
      simp only [if_true, if_pos rfl]
      exact real_le_core _ _ te tm _ hte fun _ => le_max_right _ _
    | false =>
      cases horig : info.origEx with
      | true =>
        simp only [Bool.false_eq_true, if_false, if_true, if_pos rfl]
        exact real_le_core _ _ te tm _ hte fun _ => le_max_left _ _
      | false =>
        simp only [Bool.false_eq_true, if_false, if_true, if_pos rfl]
        exact real_le_core _ _ te tm _ hte fun h => absurd h (by simp)
  | false =>
    cases horig : info.origEx with
    | true =>
      simp only [Bool.false_eq_true, if_false, if_true, if_pos rfl]
      exact real_le_core _ _ te tm _ hte fun _ => le_max_left _ _
    | false =>
      simp only [Bool.false_eq_true, if_false, if_true, if_pos rfl]
      exact real_le_core _ _ te tm _ hte fun h => absurd h (by simp)

theorem flatten_map_sublist {α β : Type} (l : List β) (f g : β → List α)
    (h : ∀ x ∈ l, (f x).Sublist (g x)) :
    ((l.map f).flatten).Sublist ((l.map g).flatten) := by
  induction l with
  | nil => exact List.Sublist.refl _
  | cons x l2 ih =>
    rw [List.map_cons, List.map_cons, List.flatten_cons, List.flatten_cons]
    exact (h x (by simp)).append (ih fun y hy => h y (by simp [hy]))

/-! # The claims -/

/-- C4: Segmentation round-trip.  For every input text and every configured
character limit, the segments returned by the SRT segmenter
(`_dividir_texto_segmentos_srt`) and by the video-caption segmenter
(`_dividir_texto_segmentos`) preserve the input's word sequence exactly:
concatenating the word lists of the segments, in order, reproduces the word
list of the whitespace-normalized input — no word dropped, duplicated,
reordered, or altered.  (Joining the segments with single spaces and
normalizing whitespace therefore reproduces the normalized text.) -/
theorem c4_segmentation_roundtrip (texto : List Char)
    (maxChars legendasLinhas : Nat) :
    ((dividirTextoSegmentosSrt texto maxChars).map pySplit).flatten =
      pySplit texto ∧
    ((dividirTextoSegmentos texto legendasLinhas).map pySplit).flatten =
      pySplit texto := by
  refine ⟨dividirSrt_words texto maxChars, ?_⟩
  rw [dividir_eq]
  exact dividirSrt_words texto _

set_option maxRecDepth 80000 in
/-- C5 counterexample: a single 125-character word is returned as one
125-character segment under `max_chars = 120`, so "every segment has length
at most max_chars_per_segment" is false as stated. -/
theorem c5_counterexample :
    ¬ ∀ seg ∈ dividirTextoSegmentosSrt exWord125 120, seg.length ≤ 120 := by
  decide

set_option maxRecDepth 80000 in
/-- C5 amended: every segment returned by the SRT segmenter either has
length at most `max_chars` or is a single whitespace-free word (the
documented oversized-word overflow); segment boundaries never split inside a
word (C4 proves the word sequence is preserved exactly).  The Scenario C
instance holds: a 300-character text of short sentences under
`max_chars = 120` yields at least 3 segments, each of at most 120
characters. -/
theorem c5_amended (texto : List Char) (maxChars : Nat) :
    (∀ seg ∈ dividirTextoSegmentosSrt texto maxChars,
      seg.length ≤ maxChars ∨ pySplit seg = [seg]) ∧
    (3 ≤ (dividirTextoSegmentosSrt exText300 120).length ∧
      ∀ seg ∈ dividirTextoSegmentosSrt exText300 120, seg.length ≤ 120) := by
  constructor
  · intro seg hseg
    exact dividirSrt_segOk texto maxChars seg hseg
  · decide

/-- C7 counterexample: on empty input both segmenters return the one-element
list containing the empty string, not the empty list. -/
theorem c7_counterexample :
    dividirTextoSegmentosSrt [] 120 ≠ [] ∧
    dividirTextoSegmentos [] 2 ≠ [] ∧
    dividirTextoSegmentosSrt [] 120 = [[]] ∧
    dividirTextoSegmentos [] 2 = [[]] := by
  decide

/-- C7 amended: when the input text is empty, each segmenter returns the
one-element list holding the empty segment (its `len(texto) <= max` fast
path), not an empty list; both callers skip blank text before ever calling
the segmenter, so the empty segment is never rendered. -/
theorem c7_amended (maxChars legendasLinhas : Nat) :
    dividirTextoSegmentosSrt [] maxChars = [[]] ∧
    dividirTextoSegmentos [] legendasLinhas = [[]] := by
  constructor
  · rw [dividirTextoSegmentosSrt]
    simp [normTexto, pyStrip, nlToSpace, collapseDouble]
  · rw [dividir_eq, dividirTextoSegmentosSrt]
    simp [normTexto, pyStrip, nlToSpace, collapseDouble]

/-- C9: the caption-display segmenter and the subtitle segmenter implement
the same deterministic packing algorithm: on any input text,
`_dividir_texto_segmentos` (whose budget is `min(legendas_linhas*40, 120)`)
returns exactly the segment list of `_dividir_texto_segmentos_srt` at that
budget.  Both are pure functions of their inputs, so determinism (equal
outputs on repeated runs) is immediate. -/
theorem c9_segmenters_equivalent (texto : List Char) (legendasLinhas : Nat) :
    dividirTextoSegmentos texto legendasLinhas =
      dividirTextoSegmentosSrt texto (min (legendasLinhas * 40) 120) :=
  dividir_eq texto legendasLinhas

/-- C10: for every input string (including empty and whitespace-only) the
SRT segmenter returns at least one segment; hence in `gerar_srt` the
`num_segmentos == 0` skip branch is unreachable for non-blank text and
`duracao_slide / num_segmentos` never divides by zero. -/
theorem c10_divisor_nonempty (texto : List Char) (maxChars : Nat) :
    dividirTextoSegmentosSrt texto maxChars ≠ [] ∧
    0 < (dividirTextoSegmentosSrt texto maxChars).length := by
  refine ⟨dividirSrt_ne_nil texto maxChars, ?_⟩
  exact List.length_pos.mpr (dividirSrt_ne_nil texto maxChars)

/-- C1: karaoke duration conservation.  For every slide whose narration has
at least one word, with the slide duration and word-timing duration computed
by `gerar_video` (here `resolverTimingSlide`) and `tempo_extra_slide ≥ 0`:
the karaoke clip durations sum exactly to the slide's total duration (exact
rational equality, hence within any tolerance), and if the audio file loads
then exactly one clip carries it — the first — while without audio no clip
carries any. -/
theorem c1_karaoke_conservation (texto : List Char) (info : SlideAudioInfo)
    (usarTrad audioOk : Bool) (te tm : ℚ)
    (hw : pySplit (pyStrip texto) ≠ []) (hte : 0 ≤ te) :
    let r := resolverTimingSlide (some info) usarTrad te tm
    let clips := gerarClipsKaraoke texto r.duracao audioOk
      (some r.duracaoAudioReal)
    (clips.map ClipKaraoke.dur).sum = r.duracao ∧
    (audioOk = true → clips.countP (fun c => c.audio) = 1 ∧
      clips.head?.map (fun c => c.audio) = some true) ∧
    (audioOk = false → clips.countP (fun c => c.audio) = 0) := by
  intro r clips
  obtain ⟨hcount, hhead⟩ :=
    gerarClips_audio texto r.duracao audioOk (some r.duracaoAudioReal) hw
  refine ⟨?_, ?_, ?_⟩
  · refine gerarClips_sum texto r.duracao audioOk (some r.duracaoAudioReal) hw
      (fun q hq hq0 => ?_)
    injection hq with h
    subst h
    exact resolver_real_le info usarTrad te tm hte hq0
  · intro ha
    subst ha
    rw [if_pos rfl] at hcount
    exact ⟨hcount, hhead⟩
  · intro ha
    subst ha
    rw [if_neg (by simp)] at hcount
    exact hcount

section RatEval

attribute [local semireducible] Rat.add Rat.mul Rat.inv Rat.sub

/-- C3 counterexample: at the spec's own Scenario B (20 words, 2.0 s of
audio governing the slide), the code groups 3 words per frame but then gives
every frame `2/7 s < 0.3 s`, so "every displayed group remains visible for
at least min_visible_seconds" is false.  Moreover the group size is computed
with Python `int()` (truncation), not `ceil`: at 20 words over 2.4 s
(0.12 s/word, ratio 0.3/0.12 = 2.5) the code makes groups of 2 words
(10 frames), where the claimed `ceil(2.5) = 3` would make 7 frames. -/
theorem c3_counterexample :
    (¬ ∀ c ∈ gerarClipsKaraoke exText20 2 false (some 2),
      (3 : ℚ) / 10 ≤ c.dur) ∧
    (gerarClipsKaraoke exText20 (12 / 5) false (some (12 / 5))).map
      (fun c => c.grupo.length) = List.replicate 10 2 := by
  constructor
  · decide
  · decide

end RatEval

/-- C3 amended: for a nonempty word list of `n` words and governing duration
`d > 0` with `d/n < 0.3 s`, the karaoke sequencer groups consecutive words
into batches of `max 1 (int(0.3 / (d/n)))` words (truncating division, not
`ceil`): the batches are nonempty, have at most that many words, and
concatenate to the word list in order.  Every frame is then given the same
duration `d / num_frames` — which can be below 0.3 s, so no minimum
visibility is guaranteed — and the frame durations still sum exactly to
`d`.  (Under exact arithmetic, 20 words over 2.0 s give batches of
`int(0.3/0.1) = 3` words and 7 frames of `[3,3,3,3,3,3,2]` words; the
witness checks this instance.) -/
theorem c3_amended (texto : List Char) (d : ℚ) (a : Bool)
    (hw : pySplit (pyStrip texto) ≠ []) (hd : 0 < d)
    (hfast : d / ((pySplit (pyStrip texto)).length : ℚ) < 3 / 10) :
    let palavras := pySplit (pyStrip texto)
    let k := max 1 (pyInt ((3 / 10) / (d / (palavras.length : ℚ)))).toNat
    let clips := gerarClipsKaraoke texto d a (some d)
    ((clips.map ClipKaraoke.grupo).flatten = palavras) ∧
    (∀ c ∈ clips, c.grupo ≠ [] ∧ c.grupo.length ≤ k) ∧
    ((clips.map ClipKaraoke.dur).sum = d) ∧
    (∀ c ∈ clips, c.dur = d / (clips.length : ℚ)) := by
  intro palavras k clips
  have hkd : kDpp d (some d) = d := by rw [kDpp, if_pos hd]
  have hfast2 : d / ((kPalavras texto).length : ℚ) < 3 / 10 := hfast
  have hw2 : ¬ (kPalavras texto).length = 0 := fun h =>
    hw (List.length_eq_zero.mp h)
  have htpp : kTpp texto d (some d) = d / ((kPalavras texto).length : ℚ) := by
    rw [kTpp, hkd]
  have hgr : kGrupos texto d (some d) = chunkPalavras k (kPalavras texto) := by
    rw [kGrupos, htpp, if_pos hfast2]
    rfl
  have hclips : clips =
      emitClips a (d / ((kGrupos texto d (some d)).length : ℚ))
        (max 0 (d - d)) (kGrupos texto d (some d)).length 0
        (kGrupos texto d (some d)) := by
    show gerarClipsKaraoke texto d a (some d) = _
    rw [gerarClipsKaraoke_eq, if_neg hw2, hkd]
  have hzero : max 0 (d - d) = 0 := by simp
  have hmapg : clips.map ClipKaraoke.grupo = kGrupos texto d (some d) := by
    rw [hclips, emitClips_map_grupo]
  refine ⟨?_, ?_, ?_, ?_⟩
  · rw [hmapg, kGrupos_flatten]
    rfl
  · intro c hc
    have hgmem : c.grupo ∈ kGrupos texto d (some d) := by
      rw [← hmapg]
      exact List.mem_map_of_mem _ hc
    rw [hgr] at hgmem
    exact chunkF_mem _ _ _ (le_refl _) (le_max_left _ _) _ hgmem
  · refine gerarClips_sum texto d a (some d) hw (fun q hq _ => ?_)
    injection hq with h
    subst h
    exact le_refl d
  · intro c hc
    have hlen : clips.length = (kGrupos texto d (some d)).length := by
      rw [← hmapg, List.length_map]
    rw [hclips, hzero] at hc
    rw [hlen]
    exact emitClips_dur_const _ _ _ _ _ c hc

section RatEval2

attribute [local semireducible] Rat.add Rat.mul Rat.inv Rat.sub

/-- C2 counterexample: with original audio present at 5.0 s, translated
audio present at 7.0 s, language choice "original" and padding 0.5 s,
`gerar_video` uses `duracao_audio_real = 5.0` for word timing but sets the
slide duration from `max(duracao_orig, duracao_trad) = 7.0`:
`duracao = 7.5 ≠ 5.0 + 0.5`.  The claim "the slide's timing is governed by
5.0s plus padding, not 7.0s" is false. -/
theorem c2_counterexample :
    (resolverTimingSlide (some ⟨true, 5, true, 7, 0, 0⟩) false
      (1 / 2) 3).duracaoAudioReal = 5 ∧
    (resolverTimingSlide (some ⟨true, 5, true, 7, 0, 0⟩) false
      (1 / 2) 3).duracao = 15 / 2 ∧
    (resolverTimingSlide (some ⟨true, 5, true, 7, 0, 0⟩) false
      (1 / 2) 3).duracao ≠ 5 + 1 / 2 := by
  refine ⟨by decide, by decide, by decide⟩

end RatEval2

/-- The slide duration computed by `gerar_video`, written out: the maximum
of the two resolved audio durations governs, falling back to the stored
metadata durations, then to `tempo_minimo_slide`. -/
theorem resolver_some_duracao (i : SlideAudioInfo) (u : Bool) (te tm : ℚ) :
    (resolverTimingSlide (some i) u te tm).duracao =
      (if 0 < (if max (if i.origEx then i.durOrig else 0)
            (if i.tradEx then i.durTrad else 0) ≤ 0
          then max i.storedOrig i.storedTrad
          else max (if i.origEx then i.durOrig else 0)
            (if i.tradEx then i.durTrad else 0))
       then (if max (if i.origEx then i.durOrig else 0)
            (if i.tradEx then i.durTrad else 0) ≤ 0
          then max i.storedOrig i.storedTrad
          else max (if i.origEx then i.durOrig else 0)
            (if i.tradEx then i.durTrad else 0)) + te
       else tm) := rfl

/-- C2 amended: `audio_duration_used` (`duracao_audio_real`) is the selected
language's audio duration when that file exists with positive duration, with
translated-mode falling back to the original audio (observably, via the
`fonte` flag); when no audio is selected the value falls back to
`max(duracao_orig, duracao_trad)`.  But `total_duration` is **not**
`audio_duration_used + padding`: it is `max(duracao_orig, duracao_trad) +
extra_padding` whenever that maximum is positive (falling back to the stored
metadata durations, then to `minimum_duration_seconds`).  In the scenario
with original 5.0 s and translated 7.0 s under choice "original", word
timing uses 5.0 s while the slide lasts 7.0 s + padding. -/
theorem c2_amended (info : SlideAudioInfo) (usarTrad : Bool) (te tm : ℚ) :
    let dOrig := if info.origEx then info.durOrig else 0
    let dTrad := if info.tradEx then info.durTrad else 0
    let r := resolverTimingSlide (some info) usarTrad te tm
    (0 < max dOrig dTrad → r.duracao = max dOrig dTrad + te) ∧
    (max dOrig dTrad ≤ 0 → max info.storedOrig info.storedTrad ≤ 0 →
      r.duracao = tm) ∧
    (max dOrig dTrad ≤ 0 → 0 < max info.storedOrig info.storedTrad →
      r.duracao = max info.storedOrig info.storedTrad + te) ∧
    (usarTrad = true → info.tradEx = true →
      r.fonte = FonteAudio.traduzido ∧ r.audioPath = some AudioSel.trad ∧
      (0 < dTrad → r.duracaoAudioReal = dTrad)) ∧
    (usarTrad = true → info.tradEx = false → info.origEx = true →
      r.fonte = FonteAudio.fallbackOriginal ∧
      r.audioPath = some AudioSel.orig ∧
      (0 < dOrig → r.duracaoAudioReal = dOrig)) ∧
    (usarTrad = false → info.origEx = true →
      r.fonte = FonteAudio.original ∧
      (0 < dOrig → r.duracaoAudioReal = dOrig)) ∧
    (usarTrad = false → info.origEx = false →
      r.audioPath = none ∧ r.duracaoAudioReal = max dOrig dTrad) := by
  intro dOrig dTrad r
  refine ⟨?_, ?_, ?_, ?_, ?_, ?_, ?_⟩
  · intro hpos
    show (resolverTimingSlide (some info) usarTrad te tm).duracao = _
    rw [resolver_some_duracao, if_neg (not_le.mpr hpos), if_pos hpos]
  · intro hmax hstored
    show (resolverTimingSlide (some info) usarTrad te tm).duracao = tm
    rw [resolver_some_duracao, if_pos hmax, if_neg (not_lt.mpr hstored)]
  · intro hmax hstored
    show (resolverTimingSlide (some info) usarTrad te tm).duracao = _
    rw [resolver_some_duracao, if_pos hmax, if_pos hstored]
  · intro hu htr
    subst hu
    refine ⟨?_, ?_, ?_⟩
    · show (resolverTimingSlide (some info) true te tm).fonte = _
      simp [resolverTimingSlide, htr]
    · show (resolverTimingSlide (some info) true te tm).audioPath = _
      simp [resolverTimingSlide, htr]
    · intro hpos
      show (resolverTimingSlide (some info) true te tm).duracaoAudioReal = _
      have hpos2 : (0 : ℚ) < info.durTrad := by
        rw [show dTrad = if info.tradEx then info.durTrad else 0 from rfl,
          htr] at hpos
        simpa using hpos
      simp [resolverTimingSlide, htr, not_le.mpr hpos2]
      rw [show dTrad = if info.tradEx = true then info.durTrad else 0 from rfl,
        htr]
      simp
  · intro hu htr horig
    subst hu
    refine ⟨?_, ?_, ?_⟩
    · show (resolverTimingSlide (some info) true te tm).fonte = _
      simp [resolverTimingSlide, htr, horig]
    · show (resolverTimingSlide (some info) true te tm).audioPath = _
      simp [resolverTimingSlide, htr, horig]
    · intro hpos
      show (resolverTimingSlide (some info) true te tm).duracaoAudioReal = _
      have hpos2 : (0 : ℚ) < info.durOrig := by
        rw [show dOrig = if info.origEx then info.durOrig else 0 from rfl,
          horig] at hpos
        simpa using hpos
      simp [resolverTimingSlide, htr, horig, not_le.mpr hpos2]
      rw [show dOrig = if info.origEx = true then info.durOrig else 0 from rfl,
        horig]
      simp
  · intro hu horig
    subst hu
    refine ⟨?_, ?_⟩
    · show (resolverTimingSlide (some info) false te tm).fonte = _
      simp [resolverTimingSlide, horig]
    · intro hpos
      show (resolverTimingSlide (some info) false te tm).duracaoAudioReal = _
      have hpos2 : (0 : ℚ) < info.durOrig := by
        rw [show dOrig = if info.origEx then info.durOrig else 0 from rfl,
          horig] at hpos
        simpa using hpos
      simp [resolverTimingSlide, horig, not_le.mpr hpos2]
      rw [show dOrig = if info.origEx = true then info.durOrig else 0 from rfl,
        horig]
      simp
  · intro hu horig
    subst hu
    refine ⟨?_, ?_⟩
    · show (resolverTimingSlide (some info) false te tm).audioPath = none
      simp [resolverTimingSlide, horig]
    · show (resolverTimingSlide (some info) false te tm).duracaoAudioReal = _
      simp [resolverTimingSlide, horig]
      rw [show dOrig = if info.origEx = true then info.durOrig else 0 from rfl,
        show dTrad = if info.tradEx = true then info.durTrad else 0 from rfl,
        horig]
      simp

/-- C6: over the full generated subtitle track, entry indices run
`1, 2, 3, …`; consecutive entries never overlap (`fim ≤ inicio` of the
next, across slide boundaries included, with `tempo_extra ≥ 0` and
`tempo_minimo ≥ 0`); and a slide whose text is blank produces no entries but
still advances the running clock by its slide duration, shifting every later
entry's times by exactly that duration while leaving indices unchanged. -/
theorem c6_subtitle_monotonicity (te tm : ℚ) (mc : Nat)
    (slides : List SlideSrt) (hte : 0 ≤ te) (htm : 0 ≤ tm) :
    ((gerarSrt te tm mc slides).map SrtEntry.indice =
      List.range' 1 (gerarSrt te tm mc slides).length) ∧
    List.Chain' (fun a b => a.fim ≤ b.inicio) (gerarSrt te tm mc slides) ∧
    ∀ (s : SlideSrt) (rest : List SlideSrt), pyStrip s.texto = [] →
      gerarSrt te tm mc (s :: rest) =
        (gerarSrt te tm mc rest).map (fun e =>
          ⟨e.indice, e.inicio + duracaoSlideSrt te tm s.duracaoAudio,
            e.fim + duracaoSlideSrt te tm s.duracaoAudio, e.texto⟩) := by
  obtain ⟨h1, h2, _⟩ := gerarSrtCore_ok hte htm mc slides 0 1
  refine ⟨h1, h2, ?_⟩
  intro s rest hblank
  rw [gerarSrt, gerarSrtCore, if_pos hblank, gerarSrt]
  exact gerarSrtCore_shift te tm mc rest 0
    (duracaoSlideSrt te tm s.duracaoAudio) 1

/-- C8 amended: for a slide with non-blank narration, the subtitle entries
are exactly the segments of `_dividir_texto_segmentos_srt` rendered by
`_formatar_texto_srt(…, 60)`; the segments preserve every word of the
narration in order (full text available at segment level); but the rendered
entry text keeps at most two 60-character lines per entry, so the words of
the written subtitle file form a subsequence of the narration's words — in
order and unaltered, though a per-entry suffix can be dropped. -/
theorem c8_amended (texto : List Char) (d te tm : ℚ) (mc : Nat)
    (hnb : pyStrip texto ≠ []) :
    ((gerarSrt te tm mc [⟨texto, d⟩]).map SrtEntry.texto =
      (dividirTextoSegmentosSrt texto mc).map
        (fun seg => formatarTextoSrt seg 60)) ∧
    (((dividirTextoSegmentosSrt texto mc).map pySplit).flatten =
      pySplit texto) ∧
    ((gerarSrt te tm mc [⟨texto, d⟩]).map
      (fun e => pySplit e.texto)).flatten.Sublist (pySplit texto) := by
  have hseg_ne : ¬ (dividirTextoSegmentosSrt texto mc).length = 0 := fun h =>
    dividirSrt_ne_nil texto mc (List.length_eq_zero.mp h)
  have hes : gerarSrt te tm mc [⟨texto, d⟩] =
      slideEntries 0 (duracaoSlideSrt te tm d /
          ((dividirTextoSegmentosSrt texto mc).length : ℚ)) 1 0
        (dividirTextoSegmentosSrt texto mc) := by
    rw [gerarSrt, gerarSrtCore, if_neg hnb, if_neg hseg_ne, gerarSrtCore,
      List.append_nil]
  have h1 : (gerarSrt te tm mc [⟨texto, d⟩]).map SrtEntry.texto =
      (dividirTextoSegmentosSrt texto mc).map
        (fun seg => formatarTextoSrt seg 60) := by
    rw [hes, slideEntries_map_texto]
  refine ⟨h1, dividirSrt_words texto mc, ?_⟩
  have h2 : (gerarSrt te tm mc [⟨texto, d⟩]).map (fun e => pySplit e.texto) =
      (dividirTextoSegmentosSrt texto mc).map
        (fun seg => pySplit (formatarTextoSrt seg 60)) := by
    rw [show (fun e : SrtEntry => pySplit e.texto) =
      pySplit ∘ SrtEntry.texto from rfl, ← List.map_map, h1, List.map_map]
    rfl
  rw [h2]
  refine (flatten_map_sublist _ _ pySplit
    (fun seg _ => formatarTextoSrt_sublist seg 60)).trans ?_
  rw [dividirSrt_words texto mc]

section RatEval3

attribute [local semireducible] Rat.add Rat.mul Rat.inv Rat.sub
set_option maxRecDepth 80000

/-- C8 counterexample: a 95-character narration of three 31-character words
fits in one segment, but `_formatar_texto_srt` wraps it at 60 characters,
keeps only two lines, and silently drops the third word — so the subtitle
track does lose words of the narration. -/
theorem c8_counterexample :
    exW31c ∈ pySplit exText95 ∧
    exW31c ∉ ((gerarSrt (1 / 2) 3 120 [⟨exText95, 5⟩]).map
      (fun e => pySplit e.texto)).flatten := by
  refine ⟨by decide, by decide⟩

/-- Witness for C1: a two-word slide with a 2 s original audio, padding 1 s
and minimum 3 s; the theorem applies and its hypotheses hold. -/
theorem c1_witness :
    ((gerarClipsKaraoke ('a' :: 'b' :: ' ' :: 'c' :: 'd' :: [])
        (resolverTimingSlide (some ⟨true, 2, false, 0, 0, 0⟩)
          false 1 3).duracao true
        (some (resolverTimingSlide (some ⟨true, 2, false, 0, 0, 0⟩)
          false 1 3).duracaoAudioReal)).map ClipKaraoke.dur).sum =
      (resolverTimingSlide (some ⟨true, 2, false, 0, 0, 0⟩)
        false 1 3).duracao :=
  (c1_karaoke_conservation ('a' :: 'b' :: ' ' :: 'c' :: 'd' :: [])
    ⟨true, 2, false, 0, 0, 0⟩ false true 1 3 (by decide) (by decide)).1

/-- Witness for the amended C2 at the 5 s / 7 s scenario: the slide duration
is `max(5, 7) + 1 = 8`. -/
theorem c2_amended_witness :
    (resolverTimingSlide (some ⟨true, 5, true, 7, 0, 0⟩) true 1 3).duracao
      = 8 := by
  have h := (c2_amended ⟨true, 5, true, 7, 0, 0⟩ true 1 3).1 (by decide)
  rw [h]
  decide

/-- Witness for the amended C3 at Scenario B: 20 words over 2.0 s give
7 frames of `[3,3,3,3,3,3,2]` words whose durations sum to 2.0 s. -/
theorem c3_amended_witness :
    ((gerarClipsKaraoke exText20 2 false (some 2)).map
      ClipKaraoke.dur).sum = 2 ∧
    (gerarClipsKaraoke exText20 2 false (some 2)).map
      (fun c => c.grupo.length) = [3, 3, 3, 3, 3, 3, 2] := by
  refine ⟨(c3_amended exText20 2 false (by decide) (by decide)
    (by decide)).2.2.1, by decide⟩

/-- Witness for the amended C5: the oversized 125-character word is a
member of its own segmentation and satisfies the disjunction. -/
theorem c5_amended_witness :
    exWord125 ∈ dividirTextoSegmentosSrt exWord125 120 ∧
    (exWord125.length ≤ 120 ∨ pySplit exWord125 = [exWord125]) := by
  refine ⟨by decide, (c5_amended exWord125 120).1 exWord125 (by decide)⟩

/-- Witness for C6 on a three-slide deck (text, blank, no-audio text). -/
theorem c6_witness :
    List.Chain' (fun a b => a.fim ≤ b.inicio)
      (gerarSrt 1 3 120 [⟨('H' :: 'i' :: '.' :: []), 4⟩, ⟨[], 2⟩,
        ⟨('O' :: 'k' :: '.' :: []), 0⟩]) :=
  (c6_subtitle_monotonicity 1 3 120 _ (by decide) (by decide)).2.1

/-- Witness for the amended C8 on a short two-sentence narration. -/
theorem c8_amended_witness :
    pyStrip ('H' :: 'i' :: ' ' :: 'a' :: 'l' :: 'l' :: '.' :: []) ≠ [] ∧
    ((dividirTextoSegmentosSrt
        ('H' :: 'i' :: ' ' :: 'a' :: 'l' :: 'l' :: '.' :: []) 120).map
      pySplit).flatten =
      pySplit ('H' :: 'i' :: ' ' :: 'a' :: 'l' :: 'l' :: '.' :: []) := by
  refine ⟨by decide, (c8_amended
    ('H' :: 'i' :: ' ' :: 'a' :: 'l' :: 'l' :: '.' :: []) 4 1 3 120
    (by decide)).2.1⟩

end RatEval3

end Narrator
